import Mathlib

/-!
Verification of the post-processing layer of the pgr-tk Python module
(src/pgr-tk/pgrtk/__init__.py).

The Python functions are shallowly embedded: Python ints become Int (or Nat
where the source value is a Rust u32), Python strings become List Char with
Python index semantics (a negative index wraps once from the end, an index
out of the wrapped range raises IndexError), Python dicts become association
lists with insertion-order update semantics, and raised exceptions become an
Except error value.  Each definition mirrors one Python function or loop and
is named after it.
-/

namespace PgrTk

/-- Python runtime errors that the embedded code can raise. -/
inductive PyErr where
  | indexError : PyErr
  | nameError : PyErr
deriving DecidableEq

/-- Python single-element indexing on a sequence: sequence item at index i,
with one wrap for negative indices; out-of-range access is IndexError,
modelled as none. -/
def pyGet (s : List Char) (i : Int) : Option Char :=
  if h : 0 ≤ i ∧ i < (s.length : Int) then some (s.get ⟨i.toNat, by omega⟩)
  else if h2 : -(s.length : Int) ≤ i ∧ i < 0 then
    some (s.get ⟨(i + s.length).toNat, by omega⟩)
  else none

/-- Resolve a Python slice endpoint: negative endpoints are shifted by the
length, then the result is clamped into the range from 0 to the length. -/
def pyClamp (n : Nat) (i : Int) : Nat :=
  if i < 0 then (max 0 (i + n)).toNat else min i.toNat n

/-- Python slicing s[a:b] (step 1): clamped endpoints, empty if they cross. -/
def pySlice (s : List Char) (a b : Int) : List Char :=
  let a' := pyClamp s.length a
  let b' := pyClamp s.length b
  (s.drop a').take (b' - a')

def pyGet_isSome_bounds {s : List Char} {i : Int} (h : (pyGet s i).isSome) :
    -(s.length : Int) ≤ i ∧ i < (s.length : Int) := by
  by_cases h1 : 0 ≤ i ∧ i < (s.length : Int)
  · omega
  · by_cases h2 : -(s.length : Int) ≤ i ∧ i < 0
    · omega
    · exfalso
      unfold pyGet at h
      rw [dif_neg h1, dif_neg h2] at h
      simp at h

/-- SeqLocus from the Rust side: (id, bgn, len), all u32. -/
structure SeqLocus where
  id : Nat
  bgn : Nat
  len : Nat
deriving DecidableEq

/-- One alignment segment (ref locus, target locus, kind as an ASCII code:
77 M, 88 X, 73 I, 68 D, anything else unspecified). -/
structure AlnSegment where
  refLoc : SeqLocus
  tgtLoc : SeqLocus
  t : Nat
deriving DecidableEq

/-- The non-segment parameters of get_variant_calls. -/
structure VCParams where
  refBgn : Int
  ctgBgn : Int
  rs0 : List Char
  cs0 : List Char
  strand : Nat
deriving DecidableEq

/-- A variant-call record value, mirroring the Python tuple
(chr(s.t), ref_bases, alt_bases, (key0, key1, ref_len),
 (tgt_id, ctg_bgn + tgt_bgn, tgt_len), strand); the kind character is kept
as its ASCII code. -/
structure VCRecord where
  kind : Nat
  refBases : List Char
  altBases : List Char
  refTriple : Nat × Int × Nat
  tgtTriple : Nat × Int × Nat
  strand : Nat
deriving DecidableEq

/-- The returned mapping: outer dict keyed by (ref_id, ref_position), inner
dict keyed by (target_id, strand); both dicts as insertion-ordered
association lists. -/
abbrev VCMap : Type := List ((Nat × Int) × List ((Nat × Nat) × VCRecord))

/-- Python dict assignment d[k] = v on an association list: replace in place
if the key is present, append otherwise. -/
def upsert {κ ν : Type} [DecidableEq κ] (m : List (κ × ν)) (k : κ) (v : ν) :
    List (κ × ν) :=
  match m with
  | [] => [(k, v)]
  | (k', v') :: rest => if k' = k then (k, v) :: rest else (k', v') :: upsert rest k v

/-- Association-list lookup (Python d[k] read / membership). -/
def alookup {κ ν : Type} [DecidableEq κ] (m : List (κ × ν)) (k : κ) : Option ν :=
  match m with
  | [] => none
  | (k', v') :: rest => if k' = k then some v' else alookup rest k

/-- The insertion left-shift loop of get_variant_calls:
while rs0[p0-1] == cs0[p1+tlen-1] and rs0[p0-2] == cs0[p1-2], decrement p0
and p1.  There is no lower guard: indices may go negative (Python wraps
them once) and the loop stops with IndexError when a read falls below
-len.  The Boolean `and` short-circuits, so the second pair of reads only
happens when the first comparison succeeds. -/
def insShift (rs0 cs0 : List Char) (tlen : Nat) (p0 p1 : Int) :
    Except PyErr (Int × Int) :=
  if h1 : (pyGet rs0 (p0 - 1)).isSome ∧ (pyGet cs0 (p1 + tlen - 1)).isSome then
    if pyGet rs0 (p0 - 1) = pyGet cs0 (p1 + tlen - 1) then
      if h2 : (pyGet rs0 (p0 - 2)).isSome ∧ (pyGet cs0 (p1 - 2)).isSome then
        if pyGet rs0 (p0 - 2) = pyGet cs0 (p1 - 2) then
          insShift rs0 cs0 tlen (p0 - 1) (p1 - 1)
        else .ok (p0, p1)
      else .error .indexError
    else .ok (p0, p1)
  else .error .indexError
termination_by (p0 + rs0.length + 2).toNat
decreasing_by
  have hb := pyGet_isSome_bounds h2.1
  omega

/-- The deletion left-shift loop of get_variant_calls:
while p0 > 0 and p1 > 0 and the condition
rs0[p0+rlen-1] == cs0[p1-1] and rs0[p0-2] == cs0[p1-2] holds, decrement p0
and p1.  The positivity guard does not prevent negative reads: p0 = 1
still reads rs0[-2]. -/
def delShift (rs0 cs0 : List Char) (rlen : Nat) (p0 p1 : Int) :
    Except PyErr (Int × Int) :=
  if 0 < p0 ∧ 0 < p1 then
    if h1 : (pyGet rs0 (p0 + rlen - 1)).isSome ∧ (pyGet cs0 (p1 - 1)).isSome then
      if pyGet rs0 (p0 + rlen - 1) = pyGet cs0 (p1 - 1) then
        if h2 : (pyGet rs0 (p0 - 2)).isSome ∧ (pyGet cs0 (p1 - 2)).isSome then
          if pyGet rs0 (p0 - 2) = pyGet cs0 (p1 - 2) then
            delShift rs0 cs0 rlen (p0 - 1) (p1 - 1)
          else .ok (p0, p1)
        else .error .indexError
      else .ok (p0, p1)
    else .error .indexError
  else .ok (p0, p1)
termination_by p0.toNat
decreasing_by omega

/-- For a segment of kind X, I or D: the (key, ref_bases, alt_bases) triple
that the corresponding branch of get_variant_calls computes; none for any
other kind (those branches set nothing); errors propagate from the shift
loops. -/
def segKeyBases (P : VCParams) (s : AlnSegment) :
    Except PyErr (Option ((Nat × Int) × List Char × List Char)) :=
  if s.t = 88 then
    .ok (some ((s.refLoc.id, (s.refLoc.bgn : Int) + P.refBgn + 1),
      pySlice P.rs0 s.refLoc.bgn ((s.refLoc.bgn : Int) + s.refLoc.len),
      pySlice P.cs0 s.tgtLoc.bgn ((s.tgtLoc.bgn : Int) + s.tgtLoc.len)))
  else if s.t = 73 then
    match insShift P.rs0 P.cs0 s.tgtLoc.len s.refLoc.bgn s.tgtLoc.bgn with
    | .error e => .error e
    | .ok (p0, p1) =>
      .ok (some ((s.refLoc.id, p0 + P.refBgn),
        pySlice P.rs0 (p0 - 1) (p0 + s.refLoc.len),
        pySlice P.cs0 (p1 - 1) (p1 + s.tgtLoc.len)))
  else if s.t = 68 then
    match delShift P.rs0 P.cs0 s.refLoc.len s.refLoc.bgn s.tgtLoc.bgn with
    | .error e => .error e
    | .ok (p0, p1) =>
      .ok (some ((s.refLoc.id, p0 + P.refBgn),
        pySlice P.rs0 (p0 - 1) (p0 + s.refLoc.len),
        pySlice P.cs0 (p1 - 1) (p1 + s.tgtLoc.len)))
  else .ok none

/-- The loop state of get_variant_calls: the local variables key, ref_bases
and alt_bases (unbound before the first X/I/D segment, hence Option, and
left stale by segments of other kinds), plus the accumulated dict. -/
structure VCState where
  key : Option (Nat × Int)
  refBases : Option (List Char)
  altBases : Option (List Char)
  calls : VCMap
deriving DecidableEq

def initVCState : VCState := ⟨none, none, none, []⟩

/-- Python nested dict write variant_calls.setdefault(key, {}) followed by
variant_calls[key][b] = v. -/
def upsert2 (m : VCMap) (k : Nat × Int) (b : Nat × Nat) (v : VCRecord) : VCMap :=
  upsert m k (upsert ((alookup m k).getD []) b v)

/-- One iteration of the get_variant_calls loop.  A Match segment (code 77)
is skipped.  Any other segment reaches the write at the bottom of the
`s.t != ord(M)` block: it uses the freshly computed key and bases for kinds
X, I, D, and the stale previous values for any other kind; if those local
variables are still unbound Python raises an UnboundLocalError (a
NameError). -/
def processSeg (P : VCParams) (st : VCState) (s : AlnSegment) :
    Except PyErr VCState :=
  if s.t = 77 then .ok st
  else
    match segKeyBases P s with
    | .error e => .error e
    | .ok kb =>
      let key? := match kb with | some (k, _, _) => some k | none => st.key
      let rb? := match kb with | some (_, rb, _) => some rb | none => st.refBases
      let ab? := match kb with | some (_, _, ab) => some ab | none => st.altBases
      match key?, rb?, ab? with
      | some k, some rb, some ab =>
        let value : VCRecord :=
          ⟨s.t, rb, ab, (k.1, k.2, s.refLoc.len),
           (s.tgtLoc.id, P.ctgBgn + s.tgtLoc.bgn, s.tgtLoc.len), P.strand⟩
        .ok ⟨some k, some rb, some ab,
          upsert2 st.calls k (s.tgtLoc.id, P.strand) value⟩
      | _, _, _ => .error .nameError

/-- Run the get_variant_calls loop over the segment list. -/
def runSegs (P : VCParams) : VCState → List AlnSegment → Except PyErr VCState
  | st, [] => .ok st
  | st, s :: rest =>
    match processSeg P st s with
    | .error e => .error e
    | .ok st' => runSegs P st' rest

/-- get_variant_calls: the returned variant_calls dict, or the Python
exception the call raises. -/
def getVariantCalls (P : VCParams) (segs : List AlnSegment) :
    Except PyErr VCMap :=
  match runSegs P initVCState segs with
  | .error e => .error e
  | .ok st => .ok st.calls

instance {ε α : Type} [DecidableEq ε] [DecidableEq α] :
    DecidableEq (Except ε α) := fun a b =>
  match a, b with
  | .error e, .error e' => decidable_of_iff (e = e') (by simp)
  | .ok x, .ok y => decidable_of_iff (x = y) (by simp)
  | .error _, .ok _ => isFalse (by simp)
  | .ok _, .error _ => isFalse (by simp)

/-- Nested lookup in the returned mapping. -/
def alookup2 (m : VCMap) (k : Nat × Int) (b : Nat × Nat) : Option VCRecord :=
  match alookup m k with
  | some inner => alookup inner b
  | none => none

/-- The (key, record) pair that a segment of kind X, I or D contributes,
independent of any previous loop state; none for other kinds or when the
shift loops raise. -/
def segProduces (P : VCParams) (s : AlnSegment) :
    Option ((Nat × Int) × VCRecord) :=
  match segKeyBases P s with
  | .ok (some (k, rb, ab)) =>
    some (k, ⟨s.t, rb, ab, (k.1, k.2, s.refLoc.len),
      (s.tgtLoc.id, P.ctgBgn + s.tgtLoc.bgn, s.tgtLoc.len), P.strand⟩)
  | _ => none

/-- Both dict levels of a variant-call map have pairwise distinct keys. -/
def NodupKeys (m : VCMap) : Prop :=
  (m.map Prod.fst).Nodup ∧ ∀ p ∈ m, (p.2.map Prod.fst).Nodup

def vcParamsW : VCParams := ⟨0, 0, ['A', 'C', 'G'], ['A', 'T', 'G'], 0⟩

def segW1 : AlnSegment := ⟨⟨0, 1, 1⟩, ⟨0, 1, 1⟩, 88⟩

def segW2 : AlnSegment := ⟨⟨0, 1, 1⟩, ⟨0, 2, 1⟩, 88⟩

def vcRecW : VCRecord := ⟨88, ['C'], ['G'], (0, 2, 1), (0, 2, 1), 0⟩

def vcMapW : VCMap := [((0, 2), [((0, 0), vcRecW)])]

/-- A linear order packaged as a Boolean relation, used to model Python's
comparison of (tuples of) ints and lists.  Python sorts by the strict
order; we carry the companion non-strict order, whose stable sort computes
the same result. -/
structure LinBool (α : Type) where
  le : α → α → Bool
  total : ∀ a b, le a b = true ∨ le b a = true
  trans : ∀ a b c, le a b = true → le b c = true → le a c = true
  antisymm : ∀ a b, le a b = true → le b a = true → a = b

def intLB : LinBool Int where
  le a b := decide (a ≤ b)
  total := by intro a b; simp; omega
  trans := by intro a b c; simp; omega
  antisymm := by intro a b; simp; omega

def natLB : LinBool Nat where
  le a b := decide (a ≤ b)
  total := by intro a b; simp; omega
  trans := by intro a b c; simp; omega
  antisymm := by intro a b; simp; omega

/-- Lexicographic order on pairs, mirroring Python tuple comparison: equal
first components (tested as mutual le) defer to the second component. -/
def LinBool.prod {α β : Type} (A : LinBool α) (B : LinBool β) :
    LinBool (α × β) where
  le p q := if A.le p.1 q.1 && A.le q.1 p.1 then B.le p.2 q.2 else A.le p.1 q.1
  total := by
    intro p q
    by_cases h1 : A.le p.1 q.1 = true
    · by_cases h2 : A.le q.1 p.1 = true
      · simpa [h1, h2] using B.total p.2 q.2
      · simp [h1, h2]
    · rcases A.total p.1 q.1 with h | h
      · exact absurd h h1
      · simp [h, h1]
  trans := by
    intro p q r h1 h2
    simp only at h1 h2 ⊢
    cases hpq : A.le p.1 q.1 with
    | false => rw [hpq] at h1; simp at h1
    | true =>
      cases hqp : A.le q.1 p.1 with
      | true =>
        rw [hpq, hqp] at h1
        simp only [Bool.and_self, if_true] at h1
        cases hqr : A.le q.1 r.1 with
        | false => rw [hqr] at h2; simp at h2
        | true =>
          cases hrq : A.le r.1 q.1 with
          | true =>
            rw [hqr, hrq] at h2
            simp only [Bool.and_self, if_true] at h2
            have h3 : A.le p.1 r.1 = true := A.trans _ _ _ hpq hqr
            have h4 : A.le r.1 p.1 = true := A.trans _ _ _ hrq hqp
            rw [h3, h4]
            simpa using B.trans _ _ _ h1 h2
          | false =>
            have h3 : A.le p.1 r.1 = true := A.trans _ _ _ hpq hqr
            have h4 : A.le r.1 p.1 = false := by
              cases hrp : A.le r.1 p.1 with
              | false => rfl
              | true => exact absurd (A.trans _ _ _ hrp hpq) (by simp [hrq])
            rw [h3, h4]
            simp
      | false =>
        have hqr : A.le q.1 r.1 = true := by
          cases hqr : A.le q.1 r.1 with
          | true => rfl
          | false => rw [hqr] at h2; simp at h2
        have h3 : A.le p.1 r.1 = true := A.trans _ _ _ hpq hqr
        have h4 : A.le r.1 p.1 = false := by
          cases hrp : A.le r.1 p.1 with
          | false => rfl
          | true => exact absurd (A.trans _ _ _ hqr hrp) (by simp [hqp])
        rw [h3, h4]
        simp
  antisymm := by
    intro p q h1 h2
    simp only at h1 h2
    cases hpq : A.le p.1 q.1 with
    | false => rw [hpq] at h1; simp at h1
    | true =>
      cases hqp : A.le q.1 p.1 with
      | true =>
        rw [hpq, hqp] at h1 h2
        simp only [Bool.and_self, if_true] at h1 h2
        exact Prod.ext (A.antisymm _ _ hpq hqp) (B.antisymm _ _ h1 h2)
      | false => rw [hpq, hqp] at h2; simp at h2

/-- Lexicographic order on lists, mirroring Python list comparison. -/
def listLeB {α : Type} (A : LinBool α) : List α → List α → Bool
  | [], _ => true
  | _ :: _, [] => false
  | a :: as, b :: bs => if A.le a b && A.le b a then listLeB A as bs else A.le a b

def listLeB_total {α : Type} (A : LinBool α) :
    ∀ l1 l2, listLeB A l1 l2 = true ∨ listLeB A l2 l1 = true := by
  intro l1
  induction l1 with
  | nil => intro l2; simp [listLeB]
  | cons a as ih =>
    intro l2
    cases l2 with
    | nil => simp [listLeB]
    | cons b bs =>
      by_cases h1 : A.le a b = true
      · by_cases h2 : A.le b a = true
        · simpa [listLeB, h1, h2] using ih bs
        · simp [listLeB, h1, h2]
      · rcases A.total a b with h | h
        · exact absurd h h1
        · simp [listLeB, h, h1]

def listLeB_trans {α : Type} (A : LinBool α) :
    ∀ l1 l2 l3, listLeB A l1 l2 = true → listLeB A l2 l3 = true →
      listLeB A l1 l3 = true := by
  intro l1
  induction l1 with
  | nil => intro l2 l3 _ _; simp [listLeB]
  | cons a as ih =>
    intro l2 l3 h1 h2
    cases l2 with
    | nil => simp [listLeB] at h1
    | cons b bs =>
      cases l3 with
      | nil => simp [listLeB] at h2
      | cons c cs =>
        simp only [listLeB] at h1 h2 ⊢
        cases hab : A.le a b with
        | false => rw [hab] at h1; simp at h1
        | true =>
          cases hba : A.le b a with
          | true =>
            rw [hab, hba] at h1
            simp only [Bool.and_self, if_true] at h1
            cases hbc : A.le b c with
            | false => rw [hbc] at h2; simp at h2
            | true =>
              cases hcb : A.le c b with
              | true =>
                rw [hbc, hcb] at h2
                simp only [Bool.and_self, if_true] at h2
                have hac : A.le a c = true := A.trans _ _ _ hab hbc
                have hca : A.le c a = true := A.trans _ _ _ hcb hba
                rw [hac, hca]
                simpa using ih bs cs h1 h2
              | false =>
                have hac : A.le a c = true := A.trans _ _ _ hab hbc
                have hca : A.le c a = false := by
                  cases hca : A.le c a with
                  | false => rfl
                  | true => exact absurd (A.trans _ _ _ hca hab) (by simp [hcb])
                rw [hac, hca]
                simp
          | false =>
            have hbc : A.le b c = true := by
              cases hbc : A.le b c with
              | true => rfl
              | false => rw [hbc] at h2; simp at h2
            have hac : A.le a c = true := A.trans _ _ _ hab hbc
            have hca : A.le c a = false := by
              cases hca : A.le c a with
              | false => rfl
              | true => exact absurd (A.trans _ _ _ hbc hca) (by simp [hba])
            rw [hac, hca]
            simp

def listLeB_antisymm {α : Type} (A : LinBool α) :
    ∀ l1 l2, listLeB A l1 l2 = true → listLeB A l2 l1 = true → l1 = l2 := by
  intro l1
  induction l1 with
  | nil =>
    intro l2 _ h2
    cases l2 with
    | nil => rfl
    | cons b bs => simp [listLeB] at h2
  | cons a as ih =>
    intro l2 h1 h2
    cases l2 with
    | nil => simp [listLeB] at h1
    | cons b bs =>
      simp only [listLeB] at h1 h2
      cases hab : A.le a b with
      | false => rw [hab] at h1; simp at h1
      | true =>
        cases hba : A.le b a with
        | true =>
          rw [hab, hba] at h1 h2
          simp only [Bool.and_self, if_true] at h1 h2
          rw [A.antisymm _ _ hab hba, ih bs h1 h2]
        | false => rw [hab, hba] at h2; simp at h2

def LinBool.list {α : Type} (A : LinBool α) : LinBool (List α) :=
  ⟨listLeB A, listLeB_total A, listLeB_trans A, listLeB_antisymm A⟩

/-- Stable insertion into a sorted list: the new element goes before the
first element it is le to, hence after any earlier equal elements. -/
def insertLe {α : Type} (le : α → α → Bool) (a : α) : List α → List α
  | [] => [a]
  | b :: bs => if le a b then a :: b :: bs else b :: insertLe le a bs

/-- Stable sort by a Boolean le, the model of Python list.sort(): Python's
sort is stable and sorts by the strict companion of le, and any stable sort
by a total preorder computes the same list. -/
def pySort {α : Type} (le : α → α → Bool) : List α → List α
  | [] => []
  | a :: rest => insertLe le a (pySort le rest)

/-- A region tuple (bgn, end, length, orientation, aln) as built and
consumed by query_sdb and merge_regions; aln is the list of records the
region aggregates. -/
abbrev Rgn (α : Type) : Type := Int × Int × Int × Nat × List α

/-- Python tuple order on regions: componentwise lexicographic, the aln
component compared as a list. -/
def rgnLB {α : Type} (A : LinBool α) : LinBool (Rgn α) :=
  intLB.prod (intLB.prod (intLB.prod (natLB.prod A.list)))

/-- The in-place merge step of merge_regions: fwd_rgns[-1][1] = r[1],
fwd_rgns[-1][2] += r[2], fwd_rgns[-1][4] += r[4]. -/
def mergeInto {α : Type} (cur r : Rgn α) : Rgn α :=
  (cur.1, r.2.1, cur.2.2.1 + r.2.2.1, cur.2.2.2.1, cur.2.2.2.2 ++ r.2.2.2.2)

/-- The per-orientation scan loop of merge_regions, carrying the list of
closed regions, the currently open region (the mutable last element of the
Python list) and the variable last.  A candidate r is skipped when
r[1] < open region's end; merged into it when r[0] - last < tol; otherwise
the open region is closed and r opens a new one. -/
def scanAux {α : Type} (tol : Int) (done : List (Rgn α)) (cur : Rgn α)
    (last : Int) : List (Rgn α) → List (Rgn α)
  | [] => done ++ [cur]
  | r :: rest =>
    if r.2.1 < cur.2.1 then scanAux tol done cur last rest
    else if r.1 - last < tol then
      scanAux tol done (mergeInto cur r) (mergeInto cur r).2.1 rest
    else scanAux tol (done ++ [cur]) r r.2.1 rest

/-- One orientation class of merge_regions: first element opens the scan
(last = r[1]). -/
def scanRgns {α : Type} (tol : Int) : List (Rgn α) → List (Rgn α)
  | [] => []
  | r :: rest => scanAux tol [] r r.2.1 rest

/-- merge_regions: sort (Python list.sort, a stable sort by the tuple
order), split by orientation 0 / 1 (other orientation values are dropped
by the two filters, as in the source), scan each class, and concatenate
forward results before reverse results. -/
def mergeRegions {α : Type} (rle : Rgn α → Rgn α → Bool) (tol : Int)
    (rgns : List (Rgn α)) : List (Rgn α) :=
  let s := pySort rle rgns
  scanRgns tol (s.filter fun r => decide (r.2.2.2.1 = 0)) ++
    scanRgns tol (s.filter fun r => decide (r.2.2.2.1 = 1))

/-- A hit pair ((q_bgn, q_end, q_orient), (t_bgn, t_end, t_orient)). -/
abbrev HitPair : Type := (Int × Int × Nat) × (Int × Int × Nat)

def tripleLB : LinBool (Int × Int × Nat) := intLB.prod (intLB.prod natLB)

def hitPairLB : LinBool HitPair := tripleLB.prod tripleLB

def pairLB : LinBool (Int × Int) := intLB.prod intLB

/-- The hit-pair tally of query_sdb: f_count incremented when the query and
target orientation bits agree, r_count otherwise. -/
def tallyAln : Nat → Nat → List HitPair → Nat × Nat
  | fc, rc, [] => (fc, rc)
  | fc, rc, hp :: rest =>
    if hp.1.2.2 = hp.2.2.2 then tallyAln (fc + 1) rc rest
    else tallyAln fc (rc + 1) rest

/-- The inner loop of query_sdb over the (score, aln) list of one
(sid, alns) input entry.  Note that f_count and r_count are initialised
once per entry, before this loop, so they accumulate across all retained
alignments of the entry; the orientation test f_count > r_count is applied
to the running totals. -/
def processEntryAux : Nat → Nat → List (Int × List HitPair) →
    List (List HitPair × Nat)
  | _, _, [] => []
  | fc, rc, (_, aln) :: rest =>
    if 2 < aln.length then
      (aln,
        if ((tallyAln fc rc aln).2 : Nat) < (tallyAln fc rc aln).1 then 0 else 1) ::
        processEntryAux (tallyAln fc rc aln).1 (tallyAln fc rc aln).2 rest
    else processEntryAux fc rc rest

/-- One (sid, alns) entry of query_sdb: f_count = r_count = 0, then the
inner loop. -/
def processEntry (alns : List (Int × List HitPair)) :
    List (List HitPair × Nat) :=
  processEntryAux 0 0 alns

/-- Python dict-of-list extension: setdefault(k, []) plus successive
appends of the given items; no key is created when there is nothing to
append (the setdefault sits inside the retention branch). -/
def dictExtend {κ ν : Type} [DecidableEq κ] (k : κ) (items : List ν) :
    List (κ × List ν) → List (κ × List ν)
  | [] => if items.isEmpty then [] else [(k, items)]
  | (k', vs) :: rest =>
    if items.isEmpty then (k', vs) :: rest
    else if k' = k then (k, vs ++ items) :: rest
    else (k', vs) :: dictExtend k items rest

/-- The sid_to_alns dict of query_sdb. -/
def buildSidToAlns (r : List (Nat × List (Int × List HitPair))) :
    List (Nat × List (List HitPair × Nat)) :=
  r.foldl (fun m e => dictExtend e.1 (processEntry e.2) m) []

/-- target_coor: the (t_bgn, t_end) pairs of an alignment. -/
def targetCoor (aln : List HitPair) : List (Int × Int) :=
  aln.map fun hp => (hp.2.1, hp.2.2.1)

/-- The region built for one retained alignment: sort the target pairs,
take bgn = min(first pair) and end = max(last pair); query_sdb only calls
this with alignments of more than two hit pairs, so the defaults for an
empty list are never used (Python would raise IndexError there). -/
def regionOfAln (aln : List HitPair) (orient : Nat) : Rgn HitPair :=
  let tc := pySort pairLB.le (targetCoor aln)
  let b := match tc.head? with | some p => min p.1 p.2 | none => 0
  let e := match tc.getLast? with | some p => max p.1 p.2 | none => 0
  (b, e, e - b, orient, aln)

/-- The aln_range dict of query_sdb.  sid_to_alns has pairwise distinct
keys by construction, so iterating its items and appending one region per
(aln, orientation) pair is a per-entry map. -/
def buildAlnRange (m : List (Nat × List (List HitPair × Nat))) :
    List (Nat × List (Rgn HitPair)) :=
  m.map fun p => (p.1, p.2.map fun q => regionOfAln q.1 q.2)

/-- query_sdb after the index query: build regions per target id, then
merge each id's region list when merge_range_tol > 0. -/
def querySdb (r : List (Nat × List (Int × List HitPair)))
    (mergeRangeTol : Int) : List (Nat × List (Rgn HitPair)) :=
  let ar := buildAlnRange (buildSidToAlns r)
  if 0 < mergeRangeTol then
    ar.map fun p => (p.1, mergeRegions (rgnLB hitPairLB).le mergeRangeTol p.2)
  else ar

instance : DecidableEq HitPair := inferInstance

instance : DecidableEq (Rgn HitPair) := inferInstance

/-- A hit pair votes forward when its query and target orientation bits
agree. -/
def hpAgree (hp : HitPair) : Bool := decide (hp.1.2.2 = hp.2.2.2)

/-- The alignments of one input entry that query_sdb retains: those with
more than two hit pairs. -/
def retainedAlns (alns : List (Int × List HitPair)) : List (List HitPair) :=
  (alns.map Prod.snd).filter fun aln => decide (2 < aln.length)

/-- Modelled from the claim C2 wording: the orientation the claim predicts
for a retained alignment, a majority vote over that alignment's hit pairs
alone, ties yielding 1. -/
def alnMajorityOrientation (aln : List HitPair) : Nat :=
  if (aln.filter fun hp => !(hpAgree hp)).length <
      (aln.filter hpAgree).length then 0 else 1

/-- Modelled from the amended claim: orientations assigned from the
running cumulative forward/reverse totals over the retained alignments
processed so far in the entry (including the current one); a cumulative
tie yields 1. -/
def cumTallySpec (fc rc : Nat) : List (List HitPair) →
    List (List HitPair × Nat)
  | [] => []
  | aln :: rest =>
    (aln,
      if rc + (aln.filter fun hp => !(hpAgree hp)).length <
          fc + (aln.filter hpAgree).length then 0 else 1) ::
      cumTallySpec (fc + (aln.filter hpAgree).length)
        (rc + (aln.filter fun hp => !(hpAgree hp)).length) rest

def c2aln1 : List HitPair :=
  [((0, 10, 0), (100, 110, 0)), ((20, 30, 0), (120, 130, 0)),
   ((40, 50, 0), (140, 150, 0))]

def c2aln2 : List HitPair :=
  [((0, 10, 0), (200, 210, 1)), ((20, 30, 0), (220, 230, 1)),
   ((40, 50, 0), (240, 250, 0))]

/-- All target-interval start and end values of an alignment. -/
def coordVals (aln : List HitPair) : List Int :=
  (targetCoor aln).foldr (fun p acc => p.1 :: p.2 :: acc) []

def c3aln : List HitPair :=
  [((0, 10, 0), (1, 100, 0)), ((20, 30, 0), (2, 3, 0)),
   ((40, 50, 0), (4, 5, 0))]

/-- Scalar fields of a region (everything except the aln list). -/
def dropAln {α : Type} (r : Rgn α) : Int × Int × Int × Nat :=
  (r.1, r.2.1, r.2.2.1, r.2.2.2.1)

/-- Replace only the aln component of a region. -/
def withAln {α : Type} (r : Rgn α) (a : List α) : Rgn α :=
  (r.1, r.2.1, r.2.2.1, r.2.2.2.1, a)

/-- Relation between an input region value and its value after the call:
scalar slots unchanged, the original aln list a prefix of the final one
(it is only ever extended in place). -/
def RgnAliased {α : Type} (orig post : Rgn α) : Prop :=
  dropAln orig = dropAln post ∧ orig.2.2.2.2 <+: post.2.2.2.2

/-- Replay of the scan computing the final value of each consumed input
element of one orientation class: base is the original value of the region
that opened the current kept group (its shallow copy shares the aln list
object, which each merge extends by the merged region's aln), acc collects
those extensions, members are the original values of the group's other
consumed elements (skipped or merged, never mutated), cur and last track
the scan state exactly as scanAux does. -/
def scanPostAux {α : Type} (tol : Int) (post : List (Rgn α)) (base : Rgn α)
    (acc : List α) (members : List (Rgn α)) (cur : Rgn α) (last : Int) :
    List (Rgn α) → List (Rgn α)
  | [] => post ++ withAln base (base.2.2.2.2 ++ acc) :: members
  | r :: rest =>
    if r.2.1 < cur.2.1 then
      scanPostAux tol post base acc (members ++ [r]) cur last rest
    else if r.1 - last < tol then
      scanPostAux tol post base (acc ++ r.2.2.2.2) (members ++ [r])
        (mergeInto cur r) (mergeInto cur r).2.1 rest
    else
      scanPostAux tol (post ++ withAln base (base.2.2.2.2 ++ acc) :: members)
        r [] [] r r.2.1 rest

def scanPostClass {α : Type} (tol : Int) : List (Rgn α) → List (Rgn α)
  | [] => []
  | r :: rest => scanPostAux tol [] r [] [] r r.2.1 rest

/-- Reassemble the sorted list from the per-orientation-class post values:
positions holding orientation-0 regions take the next value of the first
list, orientation-1 positions the next value of the second list, any other
orientation is untouched.  The empty fallbacks are unreachable when the
class lists have matching lengths. -/
def spliceByOri {α : Type} : List (Rgn α) → List (Rgn α) → List (Rgn α) →
    List (Rgn α)
  | [], _, _ => []
  | x :: xs, f, r =>
    if x.2.2.2.1 = 0 then
      match f with
      | [] => x :: spliceByOri xs [] r
      | y :: ys => y :: spliceByOri xs ys r
    else if x.2.2.2.1 = 1 then
      match r with
      | [] => x :: spliceByOri xs f []
      | y :: ys => y :: spliceByOri xs f ys
    else x :: spliceByOri xs f r

/-- The value of the caller's list after merge_regions returns:
rgns.sort() reorders the caller's list in place; the scan then works on
shallow copies (r = list(r)), so the scalar slots of the input tuples are
never reassigned, but the aln slot of each region that opens a kept merge
group aliases its copy's slot and the merge's += extends that shared list
object in place. -/
def mergeRegionsPost {α : Type} (rle : Rgn α → Rgn α → Bool) (tol : Int)
    (rgns : List (Rgn α)) : List (Rgn α) :=
  let s := pySort rle rgns
  spliceByOri s
    (scanPostClass tol (s.filter fun r => decide (r.2.2.2.1 = 0)))
    (scanPostClass tol (s.filter fun r => decide (r.2.2.2.1 = 1)))

def c10hpA : HitPair := ((0, 1, 0), (2, 3, 0))

def c10hpB : HitPair := ((4, 5, 0), (6, 7, 0))

def c10rgns : List (Rgn HitPair) :=
  [(0, 10, 10, 0, [c10hpA]), (15, 30, 15, 0, [c10hpB])]

/-- A SHIMMER pair record (shimmer0, shimmer1, pos0, pos1, direction). -/
abbrev Smp : Type := Nat × Nat × Int × Int × Nat

/-- Bundle info attached to a SHIMMER pair: (bundleId, bundleDirection,
positionInBundle). -/
abbrev BInfo : Type := Nat × Nat × Int

/-- One partition element (smp, bundleId, direction, positionInBundle). -/
abbrev BElem : Type := Smp × Nat × Nat × Int

/-- The span check of a closed partition:
new_partition[-1][0][3] - new_partition[0][0][2] > len_cutoff.  On the
empty list this is false; the code only evaluates the expression on
nonempty partitions (Python would raise IndexError otherwise). -/
def partSpanB (lenCutoff : Int) (p : List BElem) : Bool :=
  match p.head?, p.getLast? with
  | some a, some b => decide (lenCutoff < b.1.2.2.2.1 - a.1.2.2.1)
  | _, _ => false

/-- Phase 1 of group_smps_by_principle_bundle_id: walk the stream, skip
entries without bundle info, start a new partition whenever (bundleId,
direction) changes, and keep a just-closed partition only when its span
exceeds len_cutoff; the final open partition is kept under the same
condition. -/
def phase1Aux (lenCutoff : Int) :
    Option (Nat × Nat) → List BElem → List (List BElem) →
      List (Smp × Option BInfo) → List (List BElem)
  | _, newP, allP, [] =>
    if newP ≠ [] ∧ partSpanB lenCutoff newP = true then allP ++ [newP]
    else allP
  | pb, newP, allP, (smp, bi) :: rest =>
    match bi with
    | none => phase1Aux lenCutoff pb newP allP rest
    | some (bid, bdir, bpos) =>
      let d : Nat := if smp.2.2.2.2 = bdir then 0 else 1
      match pb with
      | none =>
        phase1Aux lenCutoff (some (bid, d)) [(smp, bid, d, bpos)] allP rest
      | some (pbid, pdir) =>
        if bid ≠ pbid ∨ d ≠ pdir then
          phase1Aux lenCutoff (some (bid, d)) [(smp, bid, d, bpos)]
            (if partSpanB lenCutoff newP = true then allP ++ [newP] else allP)
            rest
        else
          phase1Aux lenCutoff pb (newP ++ [(smp, bid, d, bpos)]) allP rest

def phase1 (lenCutoff : Int) (smps : List (Smp × Option BInfo)) :
    List (List BElem) :=
  phase1Aux lenCutoff none [] [] smps

/-- The phase-2 merge condition: the running partition's last element and
the next partition's first element share bundle id and direction, and
abs(next partition's begin position - running partition's end position)
is below merge_length. -/
def mergeCondB (mergeLength : Int) (partition p : List BElem) : Bool :=
  match partition.getLast?, p.head? with
  | some lastE, some firstE =>
    decide (lastE.2.1 = firstE.2.1) && decide (lastE.2.2.1 = firstE.2.2.1) &&
      decide (|firstE.1.2.2.1 - lastE.1.2.2.2.1| < mergeLength)
  | _, _ => false

/-- Phase 2 of group_smps_by_principle_bundle_id: fold the closed
partitions, extending the running partition when the merge condition
holds, flushing it otherwise. -/
def phase2Aux (mergeLength : Int) : List BElem → List (List BElem) →
    List (List BElem)
  | partition, [] => [partition]
  | partition, p :: ps =>
    if mergeCondB mergeLength partition p then
      phase2Aux mergeLength (partition ++ p) ps
    else partition :: phase2Aux mergeLength p ps

/-- group_smps_by_principle_bundle_id. -/
def groupSmps (smps : List (Smp × Option BInfo))
    (lenCutoff mergeLength : Int) : List (List BElem) :=
  match phase1 lenCutoff smps with
  | [] => []
  | part0 :: rest => phase2Aux mergeLength part0 rest

/-- Modelled from the claim C5 wording: group the kept partitions into
maximal runs of consecutive partitions in which each next partition shares
(bundleId, direction) with its predecessor's last element and sits within
mergeLength of its end; the output partitions are exactly the
concatenations of these runs. -/
def chunkBy (c : List BElem → List BElem → Bool) :
    List BElem → List (List BElem) → List (List (List BElem))
  | q, [] => [[q]]
  | q, p :: ps =>
    if c q p then
      match chunkBy c p ps with
      | [] => [[q, p]]
      | chunk :: chunks => (q :: chunk) :: chunks
    else [q] :: chunkBy c p ps

def chunkPartitions (c : List BElem → List BElem → Bool) :
    List (List BElem) → List (List (List BElem))
  | [] => []
  | q :: ps => chunkBy c q ps

/-- Python dict-of-list append: setdefault(k, []) followed by one append. -/
def dictAppend {κ ν : Type} [DecidableEq κ] (k : κ) (v : ν) :
    List (κ × List ν) → List (κ × List ν)
  | [] => [(k, [v])]
  | (k', vs) :: rest =>
    if k' = k then (k, vs ++ [v]) :: rest else (k', vs) :: dictAppend k v rest

/-- The adj_list dict of compute_graph_diffusion_entropy, built from the
parsed L-line triples (n1, n2, optional SC weight, defaulting to 1): both
directions of every edge are appended. -/
def buildAdjList (edges : List (Int × Int × Option Int)) :
    List (Int × List (Int × Int)) :=
  edges.foldl
    (fun m e =>
      let w := match e.2.2 with | some x => x | none => 1
      dictAppend e.2.1 (e.1, w) (dictAppend e.1 (e.2.1, w) m))
    []

/-- numpy integer indexing into an axis of length n: negative indices wrap
once, anything outside [-n, n) raises IndexError (none). -/
def npIdx (n : Nat) (i : Int) : Option Nat :=
  if 0 ≤ i ∧ i < (n : Int) then some i.toNat
  else if -(n : Int) ≤ i ∧ i < 0 then some (i + n).toNat
  else none

/-- One assignment adj_matrix[v][w] = weight, with numpy bounds checking on
the raw (possibly negative) node ids.  The weights are ints; numpy stores
them as float32, represented exactly here. -/
def writeMat (n : Nat) (M : Nat → Nat → Int) (v w : Int) (weight : Int) :
    Except PyErr (Nat → Nat → Int) :=
  match npIdx n v, npIdx n w with
  | some i, some j =>
    .ok (fun a b => if a = i ∧ b = j then weight else M a b)
  | _, _ => .error .indexError

/-- The matrix writes in dict iteration order: for each key v of adj_list,
one write per (w, weight) entry of its list. -/
def adjWrites (al : List (Int × List (Int × Int))) :
    List (Int × Int × Int) :=
  (al.map (fun p => p.2.map (fun q => (p.1, q.1, q.2)))).flatten

/-- One step of the write loop: errors absorb. -/
def matStep (n : Nat) (acc : Except PyErr (Nat → Nat → Int))
    (wrt : Int × Int × Int) : Except PyErr (Nat → Nat → Int) :=
  match acc with
  | .error e => .error e
  | .ok M => writeMat n M wrt.1 wrt.2.1 wrt.2.2

/-- adj_matrix construction from np.zeros((n, n)); any out-of-range id
aborts with IndexError. -/
def buildMatrix (n : Nat) (al : List (Int × List (Int × Int))) :
    Except PyErr (Nat → Nat → Int) :=
  (adjWrites al).foldl (matStep n) (.ok fun _ _ => 0)

/-- np.sum(adj_matrix, axis=1): the row sum of row i. -/
def rowSum (n : Nat) (M : Nat → Nat → Int) (i : Nat) : Int :=
  ((List.range n).map fun j => M i j).sum

/-- Column sum of the adjacency matrix. -/
def colSum (n : Nat) (M : Nat → Nat → Int) (j : Nat) : Int :=
  ((List.range n).map fun i => M i j).sum

/-- Row sum of a rational matrix (used for the transition matrix). -/
def rowSumQ (n : Nat) (T : Nat → Nat → Rat) (i : Nat) : Rat :=
  ((List.range n).map fun j => T i j).sum

/-- Column sum of a rational matrix. -/
def colSumQ (n : Nat) (T : Nat → Nat → Rat) (j : Nat) : Rat :=
  ((List.range n).map fun i => T i j).sum

/-- n_adj_matrix = adj_matrix / np.sum(adj_matrix, axis=1).  The divisor
is a length-n vector; numpy broadcasting aligns it with the LAST axis of
the (n, n) array, so entry (i, j) is divided by the row sum of row j, not
row i.  Division by a zero row sum yields junk (numpy: inf/nan with a
warning, no exception; here Rat division by zero gives 0) - either way the
call still returns an array. -/
def nAdjMatrix (n : Nat) (M : Nat → Nat → Int) : Nat → Nat → Rat :=
  fun i j => (M i j : Rat) / (rowSum n M j : Rat)

/-- np.inner(n_adj_matrix, yy): component i is the inner product of row i
with yy. -/
def matVec (n : Nat) (M : Nat → Nat → Rat) (y : Nat → Rat) : Nat → Rat :=
  fun i => ((List.range n).map fun j => M i j * y j).sum

def powerIter (n : Nat) (M : Nat → Nat → Rat) :
    Nat → (Nat → Rat) → Nat → Rat
  | 0, y => y
  | k + 1, y => powerIter n M k (matVec n M y)

/-- The outcome of compute_graph_diffusion_entropy: the Python None return
for oversized graphs, a raised exception, or the weight list
list(enumerate(yy * n_node)).  The entropy -sum(yy * log2(yy)) is a
transcendental (floating-point) function of the returned distribution yy
and is not representable in the rational embedding; the claims about this
function concern the transition matrix and the success/failure shape, both
captured here. -/
inductive DiffResult (β : Type) where
  | tooBig : DiffResult β
  | raised : PyErr → DiffResult β
  | ok : β → DiffResult β
deriving DecidableEq

def DiffResult.isOk {β : Type} : DiffResult β → Bool
  | .ok _ => true
  | _ => false

/-- compute_graph_diffusion_entropy on the parsed edge list. -/
def computeGraphDiffusion (edges : List (Int × Int × Option Int))
    (maxNodes : Nat) : DiffResult (List (Nat × Rat)) :=
  let al := buildAdjList edges
  let n := al.length
  if n > maxNodes then .tooBig
  else
    match buildMatrix n al with
    | .error e => .raised e
    | .ok M =>
      let nM := nAdjMatrix n M
      let one := fun _ : Nat => (1 : Rat) / n
      let yy := powerIter n nM n one
      .ok ((List.range n).map fun i => (i, yy i * n))

/-- The node ids of the graph, in dict insertion order. -/
def nodeIds (edges : List (Int × Int × Option Int)) : List Int :=
  (buildAdjList edges).map Prod.fst

/-- The ids are exactly 0, 1, ..., n-1 (as a set), n their count. -/
def idsContiguous (ids : List Int) : Prop :=
  ids.toFinset =
    ((List.range ids.length).map (fun k : Nat => (k : Int))).toFinset

instance : DecidablePred idsContiguous := fun ids => by
  unfold idsContiguous
  infer_instance

/-- The transition-matrix entry the function computes, reached through the
same adjacency construction (none when matrix construction raises). -/
def diffusionTransitionEntry (edges : List (Int × Int × Option Int))
    (i j : Nat) : Option Rat :=
  let al := buildAdjList edges
  match buildMatrix al.length al with
  | .error _ => none
  | .ok M => some (nAdjMatrix al.length M i j)

/-- Raw adjacency entry (none when construction raises). -/
def diffusionAdjEntry (edges : List (Int × Int × Option Int))
    (i j : Nat) : Option Int :=
  let al := buildAdjList edges
  match buildMatrix al.length al with
  | .error _ => none
  | .ok M => some (M i j)

/-- Row sum of the raw adjacency matrix (none when construction raises). -/
def diffusionAdjRowSum (edges : List (Int × Int × Option Int)) (i : Nat) :
    Option Int :=
  let al := buildAdjList edges
  match buildMatrix al.length al with
  | .error _ => none
  | .ok M => some (rowSum al.length M i)

/-- Row sum of the transition matrix (none when construction raises). -/
def diffusionTransitionRowSum (edges : List (Int × Int × Option Int))
    (i : Nat) : Option Rat :=
  let al := buildAdjList edges
  match buildMatrix al.length al with
  | .error _ => none
  | .ok M => some (rowSumQ al.length (nAdjMatrix al.length M) i)

def c6edges : List (Int × Int × Option Int) := [(0, 1, none), (1, 2, none)]

def c9edges : List (Int × Int × Option Int) := [(-1, 0, none)]

/-- The symmetric path-graph adjacency used to witness the amended C6. -/
def c6mat : Nat → Nat → Int := fun i j =>
  if (i = 0 ∧ j = 1) ∨ (i = 1 ∧ j = 0) ∨ (i = 1 ∧ j = 2) ∨ (i = 2 ∧ j = 1)
  then 1 else 0

def c9wEdges : List (Int × Int × Option Int) := [(0, 2, none)]

theorem alookup_upsert_self {κ ν : Type} [DecidableEq κ]
    (m : List (κ × ν)) (k : κ) (v : ν) : alookup (upsert m k v) k = some v := by
  induction m with
  | nil => simp [upsert, alookup]
  | cons p rest ih =>
    obtain ⟨k', v'⟩ := p
    by_cases h : k' = k
    · subst h; simp [upsert, alookup]
    · simp [upsert, alookup, h, ih]

theorem keys_upsert {κ ν : Type} [DecidableEq κ]
    (m : List (κ × ν)) (k : κ) (v : ν) :
    (upsert m k v).map Prod.fst =
      if k ∈ m.map Prod.fst then m.map Prod.fst else m.map Prod.fst ++ [k] := by
  induction m with
  | nil => simp [upsert]
  | cons p rest ih =>
    obtain ⟨k', v'⟩ := p
    by_cases h : k' = k
    · subst h; simp [upsert]
    · have hne : ¬(k = k') := fun he => h he.symm
      simp only [upsert, if_neg h, List.map_cons, List.mem_cons, ih]
      by_cases hk : k ∈ rest.map Prod.fst
      · simp [hk, hne]
      · simp [hk, hne]

theorem nodup_keys_upsert {κ ν : Type} [DecidableEq κ]
    {m : List (κ × ν)} (k : κ) (v : ν) (h : (m.map Prod.fst).Nodup) :
    ((upsert m k v).map Prod.fst).Nodup := by
  rw [keys_upsert]
  by_cases hk : k ∈ m.map Prod.fst
  · simpa [hk] using h
  · simp only [if_neg hk]
    simpa [List.nodup_append, hk] using h

theorem mem_upsert {κ ν : Type} [DecidableEq κ]
    {m : List (κ × ν)} {k : κ} {v : ν} {p : κ × ν}
    (h : p ∈ upsert m k v) : p ∈ m ∨ p = (k, v) := by
  induction m with
  | nil => simpa [upsert] using h
  | cons q rest ih =>
    obtain ⟨k', v'⟩ := q
    simp only [upsert] at h
    split at h
    · simp only [List.mem_cons] at h
      rcases h with h | h
      · exact Or.inr h
      · exact Or.inl (List.mem_cons_of_mem _ h)
    · simp only [List.mem_cons] at h
      rcases h with h | h
      · exact Or.inl (by simp [h])
      · exact (ih h).elim (fun h2 => Or.inl (List.mem_cons_of_mem _ h2)) Or.inr

theorem alookup_mem {κ ν : Type} [DecidableEq κ]
    {m : List (κ × ν)} {k : κ} {v : ν}
    (h : alookup m k = some v) : (k, v) ∈ m := by
  induction m with
  | nil => simp [alookup] at h
  | cons q rest ih =>
    obtain ⟨k', v'⟩ := q
    by_cases hk : k' = k
    · subst hk
      have hv : v' = v := by simpa [alookup] using h
      simp [hv]
    · simp only [alookup, if_neg hk] at h
      exact List.mem_cons_of_mem _ (ih h)

theorem nodupKeys_upsert2 {m : VCMap} {k : Nat × Int} {b : Nat × Nat}
    {v : VCRecord} (h : NodupKeys m) : NodupKeys (upsert2 m k b v) := by
  refine ⟨nodup_keys_upsert k _ h.1, ?_⟩
  intro p hp
  rcases mem_upsert hp with hm | he
  · exact h.2 p hm
  · subst he
    cases hi : alookup m k with
    | none => simp [hi, upsert]
    | some inner =>
      have hinner : (inner.map Prod.fst).Nodup := h.2 (k, inner) (alookup_mem hi)
      simpa [hi] using nodup_keys_upsert b v hinner

theorem alookup2_upsert2_self (m : VCMap) (k : Nat × Int) (b : Nat × Nat)
    (v : VCRecord) : alookup2 (upsert2 m k b v) k b = some v := by
  unfold alookup2 upsert2
  rw [alookup_upsert_self]
  simp [alookup_upsert_self]

theorem runSegs_append (P : VCParams) (st : VCState)
    (l1 l2 : List AlnSegment) :
    runSegs P st (l1 ++ l2) =
      match runSegs P st l1 with
      | .error e => .error e
      | .ok st' => runSegs P st' l2 := by
  induction l1 generalizing st with
  | nil => simp [runSegs]
  | cons s rest ih =>
    simp only [List.cons_append, runSegs]
    cases processSeg P st s with
    | error e => simp
    | ok st' => simp [ih]

theorem processSeg_of_produces {P : VCParams} {s : AlnSegment}
    {k : Nat × Int} {v : VCRecord} (st : VCState)
    (h : segProduces P s = some (k, v)) :
    processSeg P st s =
      .ok ⟨some k, some v.refBases, some v.altBases,
        upsert2 st.calls k (s.tgtLoc.id, P.strand) v⟩ := by
  have ht : s.t ≠ 77 := by
    intro he
    unfold segProduces segKeyBases at h
    simp [he] at h
  unfold segProduces at h
  unfold processSeg
  rw [if_neg ht]
  cases hkb : segKeyBases P s with
  | error e => rw [hkb] at h; simp at h
  | ok kb =>
    rw [hkb] at h
    cases kb with
    | none => simp at h
    | some trip =>
      obtain ⟨k', rb, ab⟩ := trip
      simp only [Option.some.injEq, Prod.mk.injEq] at h
      obtain ⟨hk, hv⟩ := h
      subst hk
      subst hv
      rfl

theorem processSeg_calls_shape {P : VCParams} {st : VCState} {s : AlnSegment}
    {st' : VCState} (h : processSeg P st s = .ok st') :
    st'.calls = st.calls ∨
      ∃ k b v, st'.calls = upsert2 st.calls k b v := by
  unfold processSeg at h
  by_cases ht : s.t = 77
  · rw [if_pos ht] at h
    cases h
    exact Or.inl rfl
  · rw [if_neg ht] at h
    cases hkb : segKeyBases P s with
    | error e => rw [hkb] at h; exact absurd h (by simp)
    | ok kb =>
      rw [hkb] at h
      cases kb with
      | some trip =>
        obtain ⟨k, rb, ab⟩ := trip
        simp only at h
        cases h
        exact Or.inr ⟨_, _, _, rfl⟩
      | none =>
        simp only at h
        cases hk : st.key <;> cases hrb : st.refBases <;> cases hab : st.altBases <;>
            rw [hk, hrb, hab] at h <;>
          first
            | (cases h; exact Or.inr ⟨_, _, _, rfl⟩)
            | exact absurd h (by simp)

theorem nodupKeys_runSegs {P : VCParams} :
    ∀ {segs : List AlnSegment} {st st' : VCState}, NodupKeys st.calls →
      runSegs P st segs = .ok st' → NodupKeys st'.calls := by
  intro segs
  induction segs with
  | nil =>
    intro st st' h hr
    simp only [runSegs] at hr
    cases hr
    exact h
  | cons s rest ih =>
    intro st st' h hr
    simp only [runSegs] at hr
    cases hp : processSeg P st s with
    | error e => rw [hp] at hr; simp at hr
    | ok st1 =>
      rw [hp] at hr
      rcases processSeg_calls_shape hp with hc | ⟨k, b, v, hc⟩
      · exact ih (hc ▸ h) hr
      · exact ih (hc ▸ nodupKeys_upsert2 h) hr

/-- C8: in the mapping returned by get_variant_calls, each (outer key,
inner key) pair holds exactly one record (both dict levels have distinct
keys), and when a later segment produces the same (refId, refPosition) key
and the same (targetId, strand) bucket as an earlier one, the later
segment's record is what the mapping holds: the final segment producing a
given key and bucket wins. -/
theorem c8_variant_call_bucket_last_write_wins (P : VCParams)
    (segs : List AlnSegment) (s : AlnSegment) (k : Nat × Int) (v : VCRecord)
    (m : VCMap) (hprod : segProduces P s = some (k, v))
    (hrun : getVariantCalls P (segs ++ [s]) = .ok m) :
    alookup2 m k (s.tgtLoc.id, P.strand) = some v ∧ NodupKeys m := by
  have hex : ∃ stf, runSegs P initVCState (segs ++ [s]) = .ok stf ∧
      stf.calls = m := by
    unfold getVariantCalls at hrun
    cases hr : runSegs P initVCState (segs ++ [s]) with
    | error e => rw [hr] at hrun; exact absurd hrun (by simp)
    | ok stf =>
      rw [hr] at hrun
      refine ⟨stf, rfl, ?_⟩
      injection hrun
  obtain ⟨stf, hr, hm⟩ := hex
  rw [runSegs_append] at hr
  cases h1 : runSegs P initVCState segs with
  | error e => rw [h1] at hr; simp at hr
  | ok st0 =>
    rw [h1] at hr
    simp only [runSegs] at hr
    rw [processSeg_of_produces st0 hprod] at hr
    simp only [runSegs] at hr
    have hst : stf = ⟨some k, some v.refBases, some v.altBases,
        upsert2 st0.calls k (s.tgtLoc.id, P.strand) v⟩ := by
      injection hr with h2
      exact h2.symm
    have hnd0 : NodupKeys st0.calls := by
      refine nodupKeys_runSegs ⟨by simp [initVCState], ?_⟩ h1
      intro p hp
      simp [initVCState] at hp
    subst hst
    subst hm
    exact ⟨alookup2_upsert2_self _ _ _ _, nodupKeys_upsert2 hnd0⟩

/-- Witness for C8: two mismatch segments hitting the same key (0, 2) and
bucket (0, 0); the final mapping holds the second segment's record. -/
theorem c8_variant_call_bucket_last_write_wins_witness :
    alookup2 vcMapW (0, 2) (segW2.tgtLoc.id, vcParamsW.strand) = some vcRecW ∧
      NodupKeys vcMapW :=
  c8_variant_call_bucket_last_write_wins vcParamsW [segW1] segW2 (0, 2) vcRecW
    vcMapW (by decide) (by decide)

theorem insertLe_perm {α : Type} (le : α → α → Bool) (a : α) (l : List α) :
    List.Perm (insertLe le a l) (a :: l) := by
  induction l with
  | nil => simp [insertLe]
  | cons b bs ih =>
    by_cases h : le a b = true
    · simp [insertLe, h]
    · simp only [insertLe, h, if_false, Bool.false_eq_true]
      exact (ih.cons b).trans (List.Perm.swap a b bs)

theorem pySort_perm {α : Type} (le : α → α → Bool) (l : List α) :
    List.Perm (pySort le l) l := by
  induction l with
  | nil => simp [pySort]
  | cons a rest ih =>
    exact (insertLe_perm le a (pySort le rest)).trans (ih.cons a)

theorem insertLe_pairwise {α : Type} (A : LinBool α) (a : α) (l : List α)
    (h : l.Pairwise fun x y => A.le x y = true) :
    (insertLe A.le a l).Pairwise fun x y => A.le x y = true := by
  induction l with
  | nil => simp [insertLe]
  | cons b bs ih =>
    rcases List.pairwise_cons.mp h with ⟨hb, hbs⟩
    by_cases hab : A.le a b = true
    · simp only [insertLe, hab, if_true]
      refine List.pairwise_cons.mpr ⟨?_, h⟩
      intro x hx
      rcases List.mem_cons.mp hx with rfl | hx'
      · exact hab
      · exact A.trans _ _ _ hab (hb x hx')
    · simp only [insertLe, hab, if_false, Bool.false_eq_true]
      refine List.pairwise_cons.mpr ⟨?_, ih hbs⟩
      intro x hx
      have hx' := (insertLe_perm A.le a bs).mem_iff.mp hx
      rcases List.mem_cons.mp hx' with rfl | hx'
      · rcases A.total x b with h1 | h1
        · exact absurd h1 hab
        · exact h1
      · exact hb x hx'

theorem pySort_pairwise {α : Type} (A : LinBool α) (l : List α) :
    (pySort A.le l).Pairwise fun x y => A.le x y = true := by
  induction l with
  | nil => simp [pySort]
  | cons a rest ih => exact insertLe_pairwise A a _ ih

theorem sorted_head_le {α : Type} (A : LinBool α) :
    ∀ {l : List α} {a x : α},
      l.Pairwise (fun u v => A.le u v = true) → l.head? = some a → x ∈ l →
        A.le a x = true := by
  intro l a x hp hh hx
  cases l with
  | nil => simp at hh
  | cons b bs =>
    simp only [List.head?_cons, Option.some.injEq] at hh
    subst hh
    rcases List.mem_cons.mp hx with rfl | hx'
    · rcases A.total x x with h | h <;> exact h
    · exact (List.pairwise_cons.mp hp).1 x hx'

theorem sorted_le_getLast {α : Type} (A : LinBool α) :
    ∀ {l : List α} {a x : α},
      l.Pairwise (fun u v => A.le u v = true) → l.getLast? = some a → x ∈ l →
        A.le x a = true := by
  intro l
  induction l with
  | nil => intro a x _ hl; simp at hl
  | cons b bs ih =>
    intro a x hp hl hx
    cases bs with
    | nil =>
      simp only [List.getLast?_singleton, Option.some.injEq] at hl
      subst hl
      simp only [List.mem_singleton] at hx
      subst hx
      rcases A.total x x with h | h <;> exact h
    | cons c cs =>
      rw [List.getLast?_cons_cons] at hl
      rcases List.mem_cons.mp hx with rfl | hx'
      · have hmem : a ∈ c :: cs := List.mem_of_mem_getLast? (Option.mem_def.mpr hl)
        exact (List.pairwise_cons.mp hp).1 a hmem
      · exact ih (List.pairwise_cons.mp hp).2 hl hx'

theorem tallyAln_eq (fc rc : Nat) (aln : List HitPair) :
    tallyAln fc rc aln =
      (fc + (aln.filter hpAgree).length,
       rc + (aln.filter fun hp => !(hpAgree hp)).length) := by
  induction aln generalizing fc rc with
  | nil => simp [tallyAln]
  | cons hp rest ih =>
    by_cases h : hp.1.2.2 = hp.2.2.2
    · rw [tallyAln, if_pos h, ih]
      simp [hpAgree, List.filter_cons, h, Prod.ext_iff]
      omega
    · rw [tallyAln, if_neg h, ih]
      simp [hpAgree, List.filter_cons, h, Prod.ext_iff]
      omega

theorem retainedAlns_cons (s : Int) (aln : List HitPair)
    (rest : List (Int × List HitPair)) :
    retainedAlns ((s, aln) :: rest) =
      if 2 < aln.length then aln :: retainedAlns rest
      else retainedAlns rest := by
  by_cases h : 2 < aln.length <;> simp [retainedAlns, h]

/-- C2 (amended): within one (sid, alns) entry of the query result, the
orientation bit attached to each retained alignment comes from the
cumulative forward/reverse tallies over all retained alignments of the
entry processed so far, including the current one; the bit is 0 exactly
when the cumulative forward count strictly exceeds the cumulative reverse
count, so a cumulative tie yields 1.  query_sdb then emits one region per
element of this list, carrying the same bit (regionOfAln passes it
through). -/
theorem c2_amended_cumulative_orientation
    (alns : List (Int × List HitPair)) :
    processEntry alns = cumTallySpec 0 0 (retainedAlns alns) := by
  suffices h : ∀ (l : List (Int × List HitPair)) (fc rc : Nat),
      processEntryAux fc rc l = cumTallySpec fc rc (retainedAlns l) by
    exact h alns 0 0
  intro l
  induction l with
  | nil => intro fc rc; simp [processEntryAux, retainedAlns, cumTallySpec]
  | cons e rest ih =>
    intro fc rc
    obtain ⟨s, aln⟩ := e
    rw [retainedAlns_cons]
    by_cases h : 2 < aln.length
    · rw [if_pos h]
      rw [processEntryAux, if_pos h, tallyAln_eq, cumTallySpec, ih]
    · rw [if_neg h]
      rw [processEntryAux, if_neg h, ih]

/-- C2 counterexample: one target id with two retained alignments.  The
first has three forward-agreeing hit pairs, the second has two
disagreeing and one agreeing pair, so its own majority is reverse (1);
but the code's cumulative tallies give 4 forward vs 2 reverse and the
emitted region for the second alignment carries orientation 0. -/
theorem c2_counterexample :
    querySdb [(7, [(100, c2aln1), (90, c2aln2)])] 0 =
      [(7, [(100, 150, 50, 0, c2aln1), (200, 250, 50, 0, c2aln2)])] ∧
      alnMajorityOrientation c2aln2 = 1 := by decide

/-- C3 counterexample: a retained alignment whose target intervals are
(1,100), (2,3), (4,5).  The maximum over all start/end values is 100, but
query_sdb emits end = max of the lexicographically last sorted pair,
namely max(4,5) = 5; the claim's end = 100 is wrong on this input. -/
theorem c3_counterexample :
    querySdb [(3, [(50, c3aln)])] 0 = [(3, [(1, 5, 4, 0, c3aln)])] ∧
      (coordVals c3aln).max? = some 100 := by decide

/-- C3 (amended): for a nonempty alignment, the emitted region takes its
begin from the lexicographically least (start, end) pair only - the
smaller of that pair's two values - and its end from the lexicographically
greatest pair only - the larger of that pair's two values - rather than
min/max over all pairs; length is their difference. -/
theorem c3_amended_region_bounds (aln : List HitPair) (o : Nat)
    (h : aln ≠ []) :
    ∃ pmin pmax : Int × Int,
      pmin ∈ targetCoor aln ∧ pmax ∈ targetCoor aln ∧
      (∀ p ∈ targetCoor aln, pairLB.le pmin p = true ∧
        pairLB.le p pmax = true) ∧
      regionOfAln aln o =
        (min pmin.1 pmin.2, max pmax.1 pmax.2,
          max pmax.1 pmax.2 - min pmin.1 pmin.2, o, aln) := by
  have htc : targetCoor aln ≠ [] := by
    intro he
    exact h (by simpa [targetCoor] using congrArg List.length he)
  have hperm := pySort_perm pairLB.le (targetCoor aln)
  have hsorted := pySort_pairwise pairLB (targetCoor aln)
  have hne : pySort pairLB.le (targetCoor aln) ≠ [] := by
    intro he
    have hnil : (targetCoor aln).Perm [] := by
      rw [← he]
      exact hperm.symm
    exact htc hnil.eq_nil
  obtain ⟨pm, tl, hcons⟩ := List.exists_cons_of_ne_nil hne
  have hhead : (pySort pairLB.le (targetCoor aln)).head? = some pm := by
    rw [hcons]; rfl
  obtain ⟨px, hlast⟩ : ∃ px,
      (pySort pairLB.le (targetCoor aln)).getLast? = some px := by
    rw [hcons]
    exact ⟨(pm :: tl).getLast (by simp), List.getLast?_eq_getLast _ _⟩
  refine ⟨pm, px, ?_, ?_, ?_, ?_⟩
  · exact hperm.mem_iff.mp (by rw [hcons]; exact List.mem_cons_self _ _)
  · exact hperm.mem_iff.mp
      (List.mem_of_mem_getLast? (Option.mem_def.mpr hlast))
  · intro p hp
    have hp' : p ∈ pySort pairLB.le (targetCoor aln) := hperm.mem_iff.mpr hp
    exact ⟨sorted_head_le pairLB hsorted hhead hp',
      sorted_le_getLast pairLB hsorted hlast hp'⟩
  · simp only [regionOfAln, hhead, hlast]

/-- Witness for C3 amended, at the counterexample alignment. -/
theorem c3_amended_region_bounds_witness :
    ∃ pmin pmax : Int × Int,
      pmin ∈ targetCoor c3aln ∧ pmax ∈ targetCoor c3aln ∧
      (∀ p ∈ targetCoor c3aln, pairLB.le pmin p = true ∧
        pairLB.le p pmax = true) ∧
      regionOfAln c3aln 0 =
        (min pmin.1 pmin.2, max pmax.1 pmax.2,
          max pmax.1 pmax.2 - min pmin.1 pmin.2, 0, c3aln) :=
  c3_amended_region_bounds c3aln 0 (by decide)

theorem LinBool.rfl_le {α : Type} (A : LinBool α) (a : α) : A.le a a = true := by
  rcases A.total a a with h | h <;> exact h

theorem prodLB_le_fst {α β : Type} {A : LinBool α} {B : LinBool β}
    {p q : α × β} (h : (A.prod B).le p q = true) : A.le p.1 q.1 = true := by
  unfold LinBool.prod at h
  simp only at h
  cases hc : (A.le p.1 q.1 && A.le q.1 p.1) <;> rw [hc] at h
  · simpa using h
  · exact ((Bool.and_eq_true _ _).mp hc).1

theorem prodLB_le_of_lt_fst {α β : Type} {A : LinBool α} {B : LinBool β}
    {p q : α × β} (h1 : A.le p.1 q.1 = true) (h2 : A.le q.1 p.1 = false) :
    (A.prod B).le p q = true := by
  unfold LinBool.prod
  simp only [h1, h2, Bool.and_false, Bool.false_eq_true, if_false]

theorem prodLB_le_snd {α β : Type} {A : LinBool α} {B : LinBool β}
    {p q : α × β} (h : (A.prod B).le p q = true)
    (hba : A.le q.1 p.1 = true) : B.le p.2 q.2 = true := by
  have hab : A.le p.1 q.1 = true := prodLB_le_fst h
  unfold LinBool.prod at h
  simpa [hab, hba] using h

theorem prodLB_le_of_snd {α β : Type} {A : LinBool α} {B : LinBool β}
    {p q : α × β} (hab : A.le p.1 q.1 = true) (hba : A.le q.1 p.1 = true)
    (h2 : B.le p.2 q.2 = true) : (A.prod B).le p q = true := by
  unfold LinBool.prod
  simpa [hab, hba] using h2

theorem intLB_le_iff {a b : Int} : intLB.le a b = true ↔ a ≤ b := by
  simp [intLB]

theorem rgnLe_bgn {α : Type} {A : LinBool α} {x y : Rgn α}
    (h : (rgnLB A).le x y = true) : x.1 ≤ y.1 :=
  intLB_le_iff.mp (prodLB_le_fst h)

theorem rgnLe_of_bgn_lt {α : Type} (A : LinBool α) {x y : Rgn α}
    (h : x.1 < y.1) : (rgnLB A).le x y = true := by
  refine prodLB_le_of_lt_fst (intLB_le_iff.mpr (le_of_lt h)) ?_
  simpa [intLB] using not_le.mpr h

theorem rgnLe_end {α : Type} {A : LinBool α} {x y : Rgn α}
    (h : (rgnLB A).le x y = true) (he : x.1 = y.1) : x.2.1 ≤ y.2.1 := by
  have h2 := prodLB_le_snd h (intLB_le_iff.mpr (le_of_eq he.symm))
  exact intLB_le_iff.mp (prodLB_le_fst h2)

theorem rgnLe_of_end_lt {α : Type} (A : LinBool α) {x y : Rgn α}
    (he : x.1 = y.1) (h : x.2.1 < y.2.1) : (rgnLB A).le x y = true := by
  refine prodLB_le_of_snd (intLB_le_iff.mpr (le_of_eq he))
    (intLB_le_iff.mpr (le_of_eq he.symm)) ?_
  refine prodLB_le_of_lt_fst (intLB_le_iff.mpr (le_of_lt h)) ?_
  simpa [intLB] using not_le.mpr h

theorem pairwise_rel_getLast {α : Type} {R : α → α → Prop} :
    ∀ {l : List α} {a x : α}, l.Pairwise R → l.getLast? = some a → x ∈ l →
      R x a ∨ x = a := by
  intro l
  induction l with
  | nil => intro a x _ hl; simp at hl
  | cons b bs ih =>
    intro a x hp hl hx
    cases bs with
    | nil =>
      simp only [List.getLast?_singleton, Option.some.injEq] at hl
      simp only [List.mem_singleton] at hx
      exact Or.inr (hx.trans hl)
    | cons c cs =>
      rw [List.getLast?_cons_cons] at hl
      rcases List.mem_cons.mp hx with rfl | hx'
      · exact Or.inl ((List.pairwise_cons.mp hp).1 a
          (List.mem_of_mem_getLast? (Option.mem_def.mpr hl)))
      · exact ih (List.pairwise_cons.mp hp).2 hl hx'

theorem chain'_and {α : Type} {R S : α → α → Prop} :
    ∀ {l : List α}, l.Chain' R → l.Chain' S →
      l.Chain' (fun a b => R a b ∧ S a b) := by
  intro l
  induction l with
  | nil => intro _ _; exact List.chain'_nil
  | cons a t ih =>
    intro hr hs
    cases t with
    | nil => exact List.chain'_singleton a
    | cons b u =>
      rw [List.chain'_cons] at hr hs ⊢
      exact ⟨⟨hr.1, hs.1⟩, ih hr.2 hs.2⟩

/-- Invariant preservation for the merge_regions scan: on a sorted
remainder, the scan keeps the emitted prefix fully sorted, with
nondecreasing ends, and with every adjacent pair separated by at least
tol (measured from the earlier region's end to the later region's
begin). -/
theorem scanAux_good {α : Type} (A : LinBool α) (tol : Int) :
    ∀ (rest done : List (Rgn α)) (cur : Rgn α),
      (done ++ [cur]).Pairwise (fun x y => (rgnLB A).le x y = true) →
      (done ++ [cur]).Pairwise (fun x y => x.2.1 ≤ y.2.1) →
      (done ++ [cur]).Chain' (fun x y => tol ≤ y.1 - x.2.1) →
      (∀ r ∈ rest, (rgnLB A).le cur r = true ∨ r.1 - cur.2.1 < tol) →
      (∀ r ∈ rest, cur.1 ≤ r.1) →
      rest.Pairwise (fun x y => (rgnLB A).le x y = true) →
      (scanAux tol done cur cur.2.1 rest).Pairwise
          (fun x y => (rgnLB A).le x y = true) ∧
        (scanAux tol done cur cur.2.1 rest).Pairwise
          (fun x y => x.2.1 ≤ y.2.1) ∧
        (scanAux tol done cur cur.2.1 rest).Chain'
          (fun x y => tol ≤ y.1 - x.2.1) := by
  intro rest
  induction rest with
  | nil =>
    intro done cur h1 h2 h3 _ _ _
    rw [scanAux]
    exact ⟨h1, h2, h3⟩
  | cons r rest' ih =>
    intro done cur h1 h2 h3 h4 h5 h6
    have h6' := (List.pairwise_cons.mp h6).2
    have h6head := (List.pairwise_cons.mp h6).1
    by_cases hskip : r.2.1 < cur.2.1
    · rw [scanAux, if_pos hskip]
      exact ih done cur h1 h2 h3
        (fun x hx => h4 x (List.mem_cons_of_mem _ hx))
        (fun x hx => h5 x (List.mem_cons_of_mem _ hx)) h6'
    · by_cases hmerge : r.1 - cur.2.1 < tol
      · rw [scanAux, if_neg hskip, if_pos hmerge]
        have hend : cur.2.1 ≤ r.2.1 := by omega
        have hm1 : (mergeInto cur r).1 = cur.1 := rfl
        have hm2 : (mergeInto cur r).2.1 = r.2.1 := rfl
        have hcurr1 : cur.1 ≤ r.1 := h5 r (List.mem_cons_self _ _)
        have hcross : ∀ d ∈ done, (rgnLB A).le d (mergeInto cur r) = true := by
          intro d hd
          have hdc : (rgnLB A).le d cur = true :=
            (List.pairwise_append.mp h1).2.2 d hd cur (List.mem_singleton.mpr rfl)
          rcases lt_or_eq_of_le (rgnLe_bgn hdc) with hlt | heq
          · exact rgnLe_of_bgn_lt A (by rw [hm1]; exact hlt)
          · have hde : d.2.1 ≤ cur.2.1 :=
              (List.pairwise_append.mp h2).2.2 d hd cur (List.mem_singleton.mpr rfl)
            rcases lt_or_eq_of_le (le_trans hde hend) with hlt2 | heq2
            · exact rgnLe_of_end_lt A (by rw [hm1]; exact heq) (by rw [hm2]; exact hlt2)
            · exfalso
              have hde2 : d.2.1 = cur.2.1 := by omega
              cases hgl : done.getLast? with
              | none =>
                rw [List.getLast?_eq_none_iff] at hgl
                rw [hgl] at hd
                simp at hd
              | some dl =>
                have hadj : tol ≤ cur.1 - dl.2.1 := by
                  have hc := (List.chain'_append.mp h3).2.2
                  exact hc dl (by rw [hgl]; rfl) cur (by rfl)
                have hddl : d.2.1 ≤ dl.2.1 := by
                  rcases pairwise_rel_getLast (List.pairwise_append.mp h2).1 hgl hd with
                    hle | heqd
                  · exact hle
                  · rw [heqd]
                have hdlc : dl.2.1 ≤ cur.2.1 :=
                  (List.pairwise_append.mp h2).2.2 dl
                    (List.mem_of_mem_getLast? (Option.mem_def.mpr hgl)) cur
                    (List.mem_singleton.mpr rfl)
                omega
        have nh1 : (done ++ [mergeInto cur r]).Pairwise
            (fun x y => (rgnLB A).le x y = true) := by
          rw [List.pairwise_append]
          refine ⟨(List.pairwise_append.mp h1).1, List.pairwise_singleton _ _, ?_⟩
          intro d hd c hc
          rw [List.mem_singleton.mp hc]
          exact hcross d hd
        have nh2 : (done ++ [mergeInto cur r]).Pairwise
            (fun x y => x.2.1 ≤ y.2.1) := by
          rw [List.pairwise_append]
          refine ⟨(List.pairwise_append.mp h2).1, List.pairwise_singleton _ _, ?_⟩
          intro d hd c hc
          rw [List.mem_singleton.mp hc, hm2]
          exact le_trans ((List.pairwise_append.mp h2).2.2 d hd cur
            (List.mem_singleton.mpr rfl)) hend
        have nh3 : (done ++ [mergeInto cur r]).Chain'
            (fun x y => tol ≤ y.1 - x.2.1) := by
          rw [List.chain'_append]
          refine ⟨(List.chain'_append.mp h3).1, List.chain'_singleton _, ?_⟩
          intro x hx y hy
          simp only [List.head?_cons, Option.mem_def, Option.some.injEq] at hy
          rw [← hy, hm1]
          exact (List.chain'_append.mp h3).2.2 x hx cur rfl
        have nh4 : ∀ x ∈ rest',
            (rgnLB A).le (mergeInto cur r) x = true ∨
              x.1 - (mergeInto cur r).2.1 < tol := by
          intro x hx
          have hx5 : cur.1 ≤ x.1 := h5 x (List.mem_cons_of_mem _ hx)
          rcases lt_or_eq_of_le hx5 with hlt | heq
          · exact Or.inl (rgnLe_of_bgn_lt A (by rw [hm1]; exact hlt))
          · right
            rw [hm2]
            omega
        have nh5 : ∀ x ∈ rest', (mergeInto cur r).1 ≤ x.1 := by
          intro x hx
          rw [hm1]
          exact h5 x (List.mem_cons_of_mem _ hx)
        have := ih done (mergeInto cur r) nh1 nh2 nh3 nh4 nh5 h6'
        rw [hm2] at this
        exact this
      · rw [scanAux, if_neg hskip, if_neg hmerge]
        have hend : cur.2.1 ≤ r.2.1 := by omega
        have hcr : (rgnLB A).le cur r = true := by
          rcases h4 r (List.mem_cons_self _ _) with h | h
          · exact h
          · exact absurd h hmerge
        have hcrossr : ∀ x ∈ done ++ [cur], (rgnLB A).le x r = true := by
          intro x hx
          rcases List.mem_append.mp hx with hx | hx
          · exact (rgnLB A).trans _ _ _
              ((List.pairwise_append.mp h1).2.2 x hx cur (List.mem_singleton.mpr rfl))
              hcr
          · rw [List.mem_singleton.mp hx]
            exact hcr
        have nh1 : ((done ++ [cur]) ++ [r]).Pairwise
            (fun x y => (rgnLB A).le x y = true) := by
          rw [List.pairwise_append]
          refine ⟨h1, List.pairwise_singleton _ _, ?_⟩
          intro x hx y hy
          rw [List.mem_singleton.mp hy]
          exact hcrossr x hx
        have nh2 : ((done ++ [cur]) ++ [r]).Pairwise
            (fun x y => x.2.1 ≤ y.2.1) := by
          rw [List.pairwise_append]
          refine ⟨h2, List.pairwise_singleton _ _, ?_⟩
          intro x hx y hy
          rw [List.mem_singleton.mp hy]
          rcases List.mem_append.mp hx with hx | hx
          · exact le_trans ((List.pairwise_append.mp h2).2.2 x hx cur
              (List.mem_singleton.mpr rfl)) hend
          · rw [List.mem_singleton.mp hx]
            exact hend
        have nh3 : ((done ++ [cur]) ++ [r]).Chain'
            (fun x y => tol ≤ y.1 - x.2.1) := by
          rw [List.chain'_append]
          refine ⟨h3, List.chain'_singleton _, ?_⟩
          intro x hx y hy
          simp only [List.head?_cons, Option.mem_def, Option.some.injEq] at hy
          rw [List.getLast?_concat] at hx
          simp only [Option.mem_def, Option.some.injEq] at hx
          rw [← hy, ← hx]
          omega
        have nh4 : ∀ x ∈ rest',
            (rgnLB A).le r x = true ∨ x.1 - r.2.1 < tol :=
          fun x hx => Or.inl (h6head x hx)
        have nh5 : ∀ x ∈ rest', r.1 ≤ x.1 :=
          fun x hx => rgnLe_bgn (h6head x hx)
        exact ih (done ++ [cur]) r nh1 nh2 nh3 nh4 nh5 h6'

theorem scanRgns_good {α : Type} (A : LinBool α) (tol : Int)
    (l : List (Rgn α))
    (hs : l.Pairwise (fun x y => (rgnLB A).le x y = true)) :
    (scanRgns tol l).Pairwise (fun x y => (rgnLB A).le x y = true) ∧
      (scanRgns tol l).Pairwise (fun x y => x.2.1 ≤ y.2.1) ∧
      (scanRgns tol l).Chain' (fun x y => tol ≤ y.1 - x.2.1) := by
  cases l with
  | nil => simp [scanRgns]
  | cons r rest =>
    rw [scanRgns]
    have hp := List.pairwise_cons.mp hs
    exact scanAux_good A tol rest [] r (by simp) (by simp) (by simp)
      (fun x hx => Or.inl (hp.1 x hx)) (fun x hx => rgnLe_bgn (hp.1 x hx)) hp.2

/-- On a list whose adjacent regions already have nondecreasing ends and
gaps of at least tol, the merge_regions scan is the identity. -/
theorem scanAux_id {α : Type} (tol : Int) :
    ∀ (rest done : List (Rgn α)) (cur : Rgn α),
      (cur :: rest).Chain' (fun x y => x.2.1 ≤ y.2.1 ∧ tol ≤ y.1 - x.2.1) →
      scanAux tol done cur cur.2.1 rest = done ++ cur :: rest := by
  intro rest
  induction rest with
  | nil => intro done cur _; rw [scanAux]
  | cons r rest' ih =>
    intro done cur hc
    rw [List.chain'_cons] at hc
    have hskip : ¬ r.2.1 < cur.2.1 := by
      have := hc.1.1
      omega
    have hmerge : ¬ r.1 - cur.2.1 < tol := by
      have := hc.1.2
      omega
    rw [scanAux, if_neg hskip, if_neg hmerge, ih (done ++ [cur]) r hc.2]
    simp

theorem scanRgns_id {α : Type} (tol : Int) (l : List (Rgn α))
    (hc : l.Chain' (fun x y => x.2.1 ≤ y.2.1 ∧ tol ≤ y.1 - x.2.1)) :
    scanRgns tol l = l := by
  cases l with
  | nil => rfl
  | cons r rest =>
    rw [scanRgns, scanAux_id tol rest [] r hc]
    rfl

/-- The scan never changes an orientation bit: every output region carries
the orientation of the class it came from. -/
theorem scanAux_ori {α : Type} (tol : Int) (c : Nat) :
    ∀ (rest done : List (Rgn α)) (cur : Rgn α) (last : Int),
      (∀ x ∈ done, x.2.2.2.1 = c) → cur.2.2.2.1 = c →
      (∀ x ∈ rest, x.2.2.2.1 = c) →
      ∀ x ∈ scanAux tol done cur last rest, x.2.2.2.1 = c := by
  intro rest
  induction rest with
  | nil =>
    intro done cur last hd hcur _ x hx
    rw [scanAux] at hx
    rcases List.mem_append.mp hx with hx | hx
    · exact hd x hx
    · rw [List.mem_singleton.mp hx]
      exact hcur
  | cons r rest' ih =>
    intro done cur last hd hcur hr x hx
    have hrh : r.2.2.2.1 = c := hr r (List.mem_cons_self _ _)
    have hrt : ∀ y ∈ rest', y.2.2.2.1 = c :=
      fun y hy => hr y (List.mem_cons_of_mem _ hy)
    by_cases hskip : r.2.1 < cur.2.1
    · rw [scanAux, if_pos hskip] at hx
      exact ih done cur last hd hcur hrt x hx
    · by_cases hmerge : r.1 - last < tol
      · rw [scanAux, if_neg hskip, if_pos hmerge] at hx
        exact ih done (mergeInto cur r) _ hd hcur hrt x hx
      · rw [scanAux, if_neg hskip, if_neg hmerge] at hx
        refine ih (done ++ [cur]) r _ ?_ hrh hrt x hx
        intro y hy
        rcases List.mem_append.mp hy with hy | hy
        · exact hd y hy
        · rw [List.mem_singleton.mp hy]
          exact hcur

theorem scanRgns_ori {α : Type} (tol : Int) (c : Nat) (l : List (Rgn α))
    (hl : ∀ x ∈ l, x.2.2.2.1 = c) :
    ∀ x ∈ scanRgns tol l, x.2.2.2.1 = c := by
  cases l with
  | nil => simp [scanRgns]
  | cons r rest =>
    rw [scanRgns]
    exact scanAux_ori tol c rest [] r r.2.1 (by simp)
      (hl r (List.mem_cons_self _ _))
      (fun y hy => hl y (List.mem_cons_of_mem _ hy))

/-- merge_regions is idempotent, for any order parameter coming from a
LinBool on the aln element type. -/
theorem mergeRegions_idem_generic {α : Type} (A : LinBool α) (tol : Int)
    (rgns : List (Rgn α)) :
    mergeRegions (rgnLB A).le tol (mergeRegions (rgnLB A).le tol rgns) =
      mergeRegions (rgnLB A).le tol rgns := by
  have hs_pw := pySort_pairwise (rgnLB A) rgns
  have hf_pw := hs_pw.filter (fun r => decide (r.2.2.2.1 = 0))
  have hr_pw := hs_pw.filter (fun r => decide (r.2.2.2.1 = 1))
  have goodf := scanRgns_good A tol _ hf_pw
  have goodr := scanRgns_good A tol _ hr_pw
  have horif : ∀ x ∈ scanRgns tol
      ((pySort (rgnLB A).le rgns).filter fun r => decide (r.2.2.2.1 = 0)),
      x.2.2.2.1 = 0 := by
    refine scanRgns_ori tol 0 _ ?_
    intro x hx
    exact of_decide_eq_true (List.mem_filter.mp hx).2
  have horir : ∀ x ∈ scanRgns tol
      ((pySort (rgnLB A).le rgns).filter fun r => decide (r.2.2.2.1 = 1)),
      x.2.2.2.1 = 1 := by
    refine scanRgns_ori tol 1 _ ?_
    intro x hx
    exact of_decide_eq_true (List.mem_filter.mp hx).2
  set f1 := scanRgns tol
    ((pySort (rgnLB A).le rgns).filter fun r => decide (r.2.2.2.1 = 0)) with hf1
  set r1 := scanRgns tol
    ((pySort (rgnLB A).le rgns).filter fun r => decide (r.2.2.2.1 = 1)) with hr1
  have hout : mergeRegions (rgnLB A).le tol rgns = f1 ++ r1 := rfl
  rw [hout]
  letI : IsAntisymm (Rgn α) (fun x y => (rgnLB A).le x y = true) :=
    ⟨fun a b h1 h2 => (rgnLB A).antisymm a b h1 h2⟩
  have hs2_pw := pySort_pairwise (rgnLB A) (f1 ++ r1)
  have hs2_perm := pySort_perm (rgnLB A).le (f1 ++ r1)
  have hfilterf : (pySort (rgnLB A).le (f1 ++ r1)).filter
      (fun r => decide (r.2.2.2.1 = 0)) = f1 := by
    have hp : List.Perm ((pySort (rgnLB A).le (f1 ++ r1)).filter
        (fun r => decide (r.2.2.2.1 = 0))) ((f1 ++ r1).filter
        (fun r => decide (r.2.2.2.1 = 0))) := hs2_perm.filter _
    have heq : (f1 ++ r1).filter (fun r => decide (r.2.2.2.1 = 0)) = f1 := by
      rw [List.filter_append]
      have h1 : f1.filter (fun r => decide (r.2.2.2.1 = 0)) = f1 :=
        List.filter_eq_self.mpr (fun x hx => decide_eq_true (horif x hx))
      have h2 : r1.filter (fun r => decide (r.2.2.2.1 = 0)) = [] := by
        rw [List.filter_eq_nil_iff]
        intro x hx
        simp [horir x hx]
      rw [h1, h2, List.append_nil]
    rw [heq] at hp
    exact List.eq_of_perm_of_sorted hp (hs2_pw.filter _) goodf.1
  have hfilterr : (pySort (rgnLB A).le (f1 ++ r1)).filter
      (fun r => decide (r.2.2.2.1 = 1)) = r1 := by
    have hp : List.Perm ((pySort (rgnLB A).le (f1 ++ r1)).filter
        (fun r => decide (r.2.2.2.1 = 1))) ((f1 ++ r1).filter
        (fun r => decide (r.2.2.2.1 = 1))) := hs2_perm.filter _
    have heq : (f1 ++ r1).filter (fun r => decide (r.2.2.2.1 = 1)) = r1 := by
      rw [List.filter_append]
      have h1 : f1.filter (fun r => decide (r.2.2.2.1 = 1)) = [] := by
        rw [List.filter_eq_nil_iff]
        intro x hx
        simp [horif x hx]
      have h2 : r1.filter (fun r => decide (r.2.2.2.1 = 1)) = r1 :=
        List.filter_eq_self.mpr (fun x hx => decide_eq_true (horir x hx))
      rw [h1, h2, List.nil_append]
    rw [heq] at hp
    exact List.eq_of_perm_of_sorted hp (hs2_pw.filter _) goodr.1
  show scanRgns tol ((pySort (rgnLB A).le (f1 ++ r1)).filter
      (fun r => decide (r.2.2.2.1 = 0))) ++
    scanRgns tol ((pySort (rgnLB A).le (f1 ++ r1)).filter
      (fun r => decide (r.2.2.2.1 = 1))) = f1 ++ r1
  rw [hfilterf, hfilterr]
  have hidf : scanRgns tol f1 = f1 :=
    scanRgns_id tol f1 (chain'_and goodf.2.1.chain' goodf.2.2)
  have hidr : scanRgns tol r1 = r1 :=
    scanRgns_id tol r1 (chain'_and goodr.2.1.chain' goodr.2.2)
  rw [hidf, hidr]

/-- C7: merge_regions is idempotent: applying it a second time with the
same tolerance to the list it returned yields a value-equal list, for
every region list and every tolerance.  The order parameter is the Python
tuple order on (bgn, end, length, orientation, aln) with aln a list of
hit pairs, as in query_sdb. -/
theorem c7_merge_regions_idempotent (tol : Int) (rgns : List (Rgn HitPair)) :
    mergeRegions (rgnLB hitPairLB).le tol
        (mergeRegions (rgnLB hitPairLB).le tol rgns) =
      mergeRegions (rgnLB hitPairLB).le tol rgns :=
  mergeRegions_idem_generic hitPairLB tol rgns

theorem rgnAliased_refl {α : Type} (r : Rgn α) : RgnAliased r r :=
  ⟨rfl, List.prefix_refl _⟩

theorem forall₂_rgnAliased_refl {α : Type} (l : List (Rgn α)) :
    List.Forall₂ RgnAliased l l :=
  List.forall₂_same.mpr fun x _ => rgnAliased_refl x

theorem scanPostAux_rel {α : Type} (tol : Int) :
    ∀ (rest : List (Rgn α)) (origPost post members : List (Rgn α))
      (base : Rgn α) (acc : List α) (cur : Rgn α) (last : Int),
      List.Forall₂ RgnAliased origPost post →
      List.Forall₂ RgnAliased (origPost ++ base :: (members ++ rest))
        (scanPostAux tol post base acc members cur last rest) := by
  intro rest
  induction rest with
  | nil =>
    intro origPost post members base acc cur last h
    rw [scanPostAux]
    simp only [List.append_nil]
    refine List.rel_append h ?_
    exact List.Forall₂.cons ⟨rfl, List.prefix_append _ _⟩
      (forall₂_rgnAliased_refl members)
  | cons r rest' ih =>
    intro origPost post members base acc cur last h
    by_cases hskip : r.2.1 < cur.2.1
    · rw [scanPostAux, if_pos hskip]
      have := ih origPost post (members ++ [r]) base acc cur last h
      simpa [List.append_assoc] using this
    · by_cases hmerge : r.1 - last < tol
      · rw [scanPostAux, if_neg hskip, if_pos hmerge]
        have := ih origPost post (members ++ [r]) base (acc ++ r.2.2.2.2)
          (mergeInto cur r) (mergeInto cur r).2.1 h
        simpa [List.append_assoc] using this
      · rw [scanPostAux, if_neg hskip, if_neg hmerge]
        have h2 : List.Forall₂ RgnAliased (origPost ++ base :: members)
            (post ++ withAln base (base.2.2.2.2 ++ acc) :: members) := by
          refine List.rel_append h ?_
          exact List.Forall₂.cons ⟨rfl, List.prefix_append _ _⟩
            (forall₂_rgnAliased_refl members)
        have := ih (origPost ++ base :: members)
          (post ++ withAln base (base.2.2.2.2 ++ acc) :: members) [] r [] r
          r.2.1 h2
        simpa [List.append_assoc] using this

theorem scanPostClass_rel {α : Type} (tol : Int) (l : List (Rgn α)) :
    List.Forall₂ RgnAliased l (scanPostClass tol l) := by
  cases l with
  | nil => exact List.Forall₂.nil
  | cons r rest =>
    have := scanPostAux_rel tol rest [] [] [] r [] r r.2.1 List.Forall₂.nil
    simpa using this

theorem spliceByOri_rel {α : Type} :
    ∀ (s f r : List (Rgn α)),
      List.Forall₂ RgnAliased (s.filter fun x => decide (x.2.2.2.1 = 0)) f →
      List.Forall₂ RgnAliased (s.filter fun x => decide (x.2.2.2.1 = 1)) r →
      List.Forall₂ RgnAliased s (spliceByOri s f r) := by
  intro s
  induction s with
  | nil => intro f r _ _; exact List.Forall₂.nil
  | cons x xs ih =>
    intro f r hf hr
    by_cases h0 : x.2.2.2.1 = 0
    · rw [List.filter_cons_of_pos (by simp [h0])] at hf
      rw [List.filter_cons_of_neg (by simp [h0])] at hr
      cases hf with
      | cons hxy htail =>
        simp only [spliceByOri]
        rw [if_pos h0]
        exact List.Forall₂.cons hxy (ih _ _ htail hr)
    · by_cases h1 : x.2.2.2.1 = 1
      · rw [List.filter_cons_of_neg (by simp [h0])] at hf
        rw [List.filter_cons_of_pos (by simp [h1])] at hr
        cases hr with
        | cons hxy htail =>
          simp only [spliceByOri]
          rw [if_neg h0, if_pos h1]
          exact List.Forall₂.cons hxy (ih _ _ hf htail)
      · rw [List.filter_cons_of_neg (by simp [h0])] at hf
        rw [List.filter_cons_of_neg (by simp [h1])] at hr
        simp only [spliceByOri]
        rw [if_neg h0, if_neg h1]
        exact List.Forall₂.cons (rgnAliased_refl x) (ih _ _ hf hr)

/-- C10 counterexample: with tol = 100 the two regions merge; after the
call the caller's first region value is (0, 10, 10, 0, [hpA, hpB]) - its
aln list was extended in place through the shallow copy - so the post list
is not a permutation of the original region values, refuting the claim
that the input tuples are never (deeply) mutated. -/
theorem c10_counterexample :
    mergeRegionsPost (rgnLB hitPairLB).le 100 c10rgns =
      [(0, 10, 10, 0, [c10hpA, c10hpB]), (15, 30, 15, 0, [c10hpB])] ∧
      ¬ List.Perm (mergeRegionsPost (rgnLB hitPairLB).le 100 c10rgns)
        c10rgns := by
  decide

/-- C10 (amended): merge_regions sorts its input list in place, leaving
the caller's list the ascending (Python tuple order) permutation of its
regions; no scalar slot of any region tuple is ever reassigned, because
each kept or merged region is a shallow copy, but the copy aliases the
region's alignment list, so a region that opens a kept merge group has
that list extended in place by the merged regions' alignment entries:
positionally, every post-call value has the same scalars as the sorted
original and an aln list that the original's is a prefix of. -/
theorem c10_amended_inplace_sort_alias (tol : Int)
    (rgns : List (Rgn HitPair)) :
    List.Perm (pySort (rgnLB hitPairLB).le rgns) rgns ∧
      (pySort (rgnLB hitPairLB).le rgns).Pairwise
        (fun x y => (rgnLB hitPairLB).le x y = true) ∧
      List.Forall₂ RgnAliased (pySort (rgnLB hitPairLB).le rgns)
        (mergeRegionsPost (rgnLB hitPairLB).le tol rgns) :=
  ⟨pySort_perm _ _, pySort_pairwise _ _,
    spliceByOri_rel _ _ _ (scanPostClass_rel tol _) (scanPostClass_rel tol _)⟩

theorem partSpanB_ne_nil {lenCutoff : Int} {p : List BElem}
    (h : partSpanB lenCutoff p = true) : p ≠ [] := by
  intro he
  rw [he] at h
  simp [partSpanB] at h

theorem phase1_good (lenCutoff : Int) :
    ∀ (smps : List (Smp × Option BInfo)) (pb : Option (Nat × Nat))
      (newP : List BElem) (allP : List (List BElem)),
      (∀ q ∈ allP, q ≠ [] ∧ partSpanB lenCutoff q = true) →
      ∀ q ∈ phase1Aux lenCutoff pb newP allP smps,
        q ≠ [] ∧ partSpanB lenCutoff q = true := by
  intro smps
  induction smps with
  | nil =>
    intro pb newP allP hall q hq
    rw [phase1Aux] at hq
    by_cases h : newP ≠ [] ∧ partSpanB lenCutoff newP = true
    · rw [if_pos h] at hq
      rcases List.mem_append.mp hq with hq | hq
      · exact hall q hq
      · rw [List.mem_singleton.mp hq]
        exact ⟨h.1, h.2⟩
    · rw [if_neg h] at hq
      exact hall q hq
  | cons e rest ih =>
    intro pb newP allP hall q hq
    obtain ⟨smp, bi⟩ := e
    cases bi with
    | none =>
      rw [phase1Aux] at hq
      exact ih pb newP allP hall q hq
    | some b =>
      obtain ⟨bid, bdir, bpos⟩ := b
      cases pb with
      | none =>
        rw [phase1Aux] at hq
        exact ih _ _ allP hall q hq
      | some pbd =>
        obtain ⟨pbid, pdir⟩ := pbd
        rw [phase1Aux] at hq
        by_cases hc : bid ≠ pbid ∨ (if smp.2.2.2.2 = bdir then 0 else 1) ≠ pdir
        · rw [if_pos hc] at hq
          refine ih _ _ _ ?_ q hq
          intro x hx
          by_cases hs : partSpanB lenCutoff newP = true
          · rw [if_pos hs] at hx
            rcases List.mem_append.mp hx with hx | hx
            · exact hall x hx
            · rw [List.mem_singleton.mp hx]
              exact ⟨partSpanB_ne_nil hs, hs⟩
          · rw [if_neg hs] at hx
            exact hall x hx
        · rw [if_neg hc] at hq
          exact ih _ _ allP hall q hq

theorem mergeCondB_congr_getLast (m : Int) {P q : List BElem}
    (h : P.getLast? = q.getLast?) (p : List BElem) :
    mergeCondB m P p = mergeCondB m q p := by
  unfold mergeCondB
  rw [h]

theorem chunkBy_first (c : List BElem → List BElem → Bool) :
    ∀ (ps : List (List BElem)) (q : List BElem),
      ∃ t chunks, chunkBy c q ps = (q :: t) :: chunks := by
  intro ps
  induction ps with
  | nil => intro q; exact ⟨[], [], rfl⟩
  | cons p ps' ih =>
    intro q
    by_cases hc : c q p = true
    · obtain ⟨t, chunks, hch⟩ := ih p
      rw [chunkBy, if_pos hc, hch]
      exact ⟨p :: t, chunks, rfl⟩
    · rw [chunkBy, if_neg hc]
      exact ⟨[], chunkBy c p ps', rfl⟩

theorem phase2Aux_chunk (m : Int) :
    ∀ (ps : List (List BElem)) (P q : List BElem),
      q ≠ [] → P.getLast? = q.getLast? → (∀ x ∈ ps, x ≠ []) →
      phase2Aux m P ps =
        match chunkBy (mergeCondB m) q ps with
        | [] => [P]
        | chunk :: chunks =>
          (P ++ chunk.tail.flatten) :: chunks.map List.flatten := by
  intro ps
  induction ps with
  | nil =>
    intro P q _ _ _
    rw [phase2Aux, chunkBy]
    simp
  | cons p ps' ih =>
    intro P q hq hPq hps
    have hp : p ≠ [] := hps p (List.mem_cons_self _ _)
    have hps' : ∀ x ∈ ps', x ≠ [] := fun x hx => hps x (List.mem_cons_of_mem _ hx)
    have hcond : mergeCondB m P p = mergeCondB m q p :=
      mergeCondB_congr_getLast m hPq p
    by_cases hc : mergeCondB m q p = true
    · rw [phase2Aux, hcond, if_pos hc, chunkBy, if_pos hc]
      obtain ⟨t, chunks, hch⟩ := chunkBy_first (mergeCondB m) ps' p
      rw [hch]
      have hlast : (P ++ p).getLast? = p.getLast? :=
        List.getLast?_append_of_ne_nil _ hp
      have := ih (P ++ p) p hp hlast hps'
      rw [hch] at this
      simp only at this ⊢
      rw [this]
      simp [List.append_assoc]
    · rw [phase2Aux, hcond, if_neg hc, chunkBy, if_neg hc]
      obtain ⟨t, chunks, hch⟩ := chunkBy_first (mergeCondB m) ps' p
      have := ih p p hp rfl hps'
      rw [hch] at this ⊢
      simp only at this ⊢
      rw [this]
      simp

/-- C5: phase 1 keeps exactly the closed partitions whose span (last
element's end position minus first element's start position, at closing
time) strictly exceeds lenCutoff - they are also nonempty - and the
returned partitions are exactly the concatenations of maximal runs of
consecutive kept partitions in which each partition shares (bundleId,
direction) with its predecessor's last element and begins within
mergeLength (absolute distance) of its predecessor's end position; a
distance of at least mergeLength, or a differing identity, never fuses. -/
theorem c5_bundle_partition_span_and_merge
    (smps : List (Smp × Option BInfo)) (lenCutoff mergeLength : Int) :
    (∀ q ∈ phase1 lenCutoff smps,
        q ≠ [] ∧ partSpanB lenCutoff q = true) ∧
      groupSmps smps lenCutoff mergeLength =
        (chunkPartitions (mergeCondB mergeLength)
          (phase1 lenCutoff smps)).map List.flatten := by
  have hgood : ∀ q ∈ phase1 lenCutoff smps,
      q ≠ [] ∧ partSpanB lenCutoff q = true :=
    phase1_good lenCutoff smps none [] [] (by simp)
  refine ⟨hgood, ?_⟩
  unfold groupSmps chunkPartitions
  cases hph : phase1 lenCutoff smps with
  | nil => rfl
  | cons part0 rest =>
    have h0 : part0 ≠ [] :=
      (hgood part0 (hph ▸ List.mem_cons_self _ _)).1
    have hrest : ∀ x ∈ rest, x ≠ [] := fun x hx =>
      (hgood x (hph ▸ List.mem_cons_of_mem _ hx)).1
    show phase2Aux mergeLength part0 rest =
      List.map List.flatten (chunkBy (mergeCondB mergeLength) part0 rest)
    have := phase2Aux_chunk mergeLength rest part0 part0 h0 rfl hrest
    rw [this]
    obtain ⟨t, chunks, hch⟩ := chunkBy_first (mergeCondB mergeLength) rest part0
    rw [hch]
    simp

theorem list_sum_div (l : List Rat) (c : Rat) :
    (l.map (fun x => x / c)).sum = l.sum / c := by
  induction l with
  | nil => simp
  | cons x xs ih => simp [ih, add_div]

/-- Pointwise expansion of the transition entry through the adjacency
accessors, on the success path. -/
theorem diffusionTransitionEntry_eq (edges : List (Int × Int × Option Int))
    (i j : Nat) :
    diffusionTransitionEntry edges i j =
      (diffusionAdjEntry edges i j).bind fun a =>
        (diffusionAdjRowSum edges j).map fun (r : Int) =>
          (a : Rat) / (r : Rat) := by
  unfold diffusionTransitionEntry diffusionAdjEntry diffusionAdjRowSum
  simp only []
  cases hbm : buildMatrix (buildAdjList edges).length (buildAdjList edges) with
  | error e => rfl
  | ok M => rfl

/-- Pointwise expansion of a transition row sum through the transition
entries, on the success path. -/
theorem diffusionTransitionRowSum_eq (edges : List (Int × Int × Option Int))
    (i : Nat) :
    diffusionTransitionRowSum edges i =
      (diffusionAdjRowSum edges i).map fun _ =>
        ((List.range (buildAdjList edges).length).map fun j =>
          (diffusionTransitionEntry edges i j).getD 0).sum := by
  unfold diffusionTransitionRowSum diffusionAdjRowSum diffusionTransitionEntry
  simp only []
  cases hbm : buildMatrix (buildAdjList edges).length (buildAdjList edges) with
  | error e => rfl
  | ok M =>
    unfold rowSumQ
    simp

theorem list_sum_intCast (l : List Int) :
    (l.map fun x : Int => (x : Rat)).sum = ((l.sum : Int) : Rat) := by
  induction l with
  | nil => simp
  | cons x xs ih => simp only [List.map_cons, List.sum_cons, ih, Int.cast_add]

/-- C6 counterexample: the path graph 0 - 1 - 2 with unit weights.  All
adjacency row sums are positive (1, 2, 1), yet the transition entry at
(0, 1) is 1/2 = adj(0,1)/rowsum(1), not adj(0,1)/rowsum(0) = 1/1, and row
0 of the transition matrix sums to 1/2, not 1.  The claim fails on this
input. -/
theorem c6_counterexample :
    diffusionAdjRowSum c6edges 0 = some 1 ∧
      diffusionAdjRowSum c6edges 1 = some 2 ∧
      diffusionAdjRowSum c6edges 2 = some 1 ∧
      diffusionAdjEntry c6edges 0 1 = some 1 ∧
      diffusionTransitionEntry c6edges 0 1 = some (1 / 2) ∧
      diffusionTransitionRowSum c6edges 0 = some (1 / 2) ∧
      ((1 : Rat) / 2 ≠ 1 / 1) ∧ ((1 : Rat) / 2 ≠ 1) := by
  have h00 : diffusionAdjEntry c6edges 0 0 = some 0 := by decide
  have h01 : diffusionAdjEntry c6edges 0 1 = some 1 := by decide
  have h02 : diffusionAdjEntry c6edges 0 2 = some 0 := by decide
  have hr0 : diffusionAdjRowSum c6edges 0 = some 1 := by decide
  have hr1 : diffusionAdjRowSum c6edges 1 = some 2 := by decide
  have hr2 : diffusionAdjRowSum c6edges 2 = some 1 := by decide
  have hlen : (buildAdjList c6edges).length = 3 := by decide
  have he00 : diffusionTransitionEntry c6edges 0 0 = some 0 := by
    rw [diffusionTransitionEntry_eq, h00, hr0]
    norm_num
  have he01 : diffusionTransitionEntry c6edges 0 1 = some (1 / 2) := by
    rw [diffusionTransitionEntry_eq, h01, hr1]
    norm_num
  have he02 : diffusionTransitionEntry c6edges 0 2 = some 0 := by
    rw [diffusionTransitionEntry_eq, h02, hr2]
    norm_num
  have hts : diffusionTransitionRowSum c6edges 0 = some (1 / 2) := by
    rw [diffusionTransitionRowSum_eq, hr0, hlen]
    have hrange : List.range 3 = [0, 1, 2] := rfl
    simp only [Option.map_some']
    rw [hrange]
    simp only [List.map_cons, List.map_nil, List.sum_cons, List.sum_nil,
      he00, he01, he02, Option.getD_some]
    norm_num
  exact ⟨hr0, hr1, hr2, h01, he01, hts, by norm_num, by norm_num⟩

/-- C6 (amended): under the precondition that every adjacency row sum is
strictly positive, the transition-matrix entry at (i, j) equals the
adjacency weight at (i, j) divided by the sum of adjacency ROW j - numpy
broadcasting aligns the row-sum vector with the last axis, so the divisor
is indexed by the column - and consequently, whenever the adjacency
matrix is symmetric (as the undirected edge-list construction produces),
every COLUMN of the transition matrix sums to 1; rows in general do
not. -/
theorem c6_amended_transition_normalization (n : Nat) (M : Nat → Nat → Int)
    (hpos : ∀ i, i < n → 0 < rowSum n M i) :
    (∀ i j, nAdjMatrix n M i j = (M i j : Rat) / (rowSum n M j : Rat)) ∧
      ((∀ i j, M i j = M j i) →
        ∀ j, j < n → colSumQ n (nAdjMatrix n M) j = 1) := by
  refine ⟨fun i j => rfl, ?_⟩
  intro hsym j hj
  have h1 : colSumQ n (nAdjMatrix n M) j =
      ((colSum n M j : Int) : Rat) / ((rowSum n M j : Int) : Rat) := by
    unfold colSumQ nAdjMatrix
    have h2 : ((List.range n).map fun i =>
        (M i j : Rat) / (rowSum n M j : Rat)) =
        (((List.range n).map fun i => (M i j : Rat)).map
          fun x => x / (rowSum n M j : Rat)) := by
      rw [List.map_map]
      rfl
    have h4 : ((List.range n).map fun i => ((M i j : Int) : Rat)) =
        ((List.range n).map fun i => M i j).map fun x => ((x : Int) : Rat) := by
      rw [List.map_map]
      rfl
    rw [h2, list_sum_div, h4, list_sum_intCast]
    rfl
  have h3 : colSum n M j = rowSum n M j := by
    unfold colSum rowSum
    congr 1
    exact List.map_congr_left fun i _ => hsym i j
  rw [h1, h3]
  refine div_self ?_
  exact_mod_cast ne_of_gt (hpos j hj)

/-- Witness for the amended C6 at the 3-node path adjacency. -/
theorem c6_amended_transition_normalization_witness :
    (∀ i j, nAdjMatrix 3 c6mat i j = (c6mat i j : Rat) /
        ((rowSum 3 c6mat j : Int) : Rat)) ∧
      ((∀ i j, c6mat i j = c6mat j i) →
        ∀ j, j < 3 → colSumQ 3 (nAdjMatrix 3 c6mat) j = 1) :=
  c6_amended_transition_normalization 3 c6mat (by decide)

theorem keys_dictAppend {κ ν : Type} [DecidableEq κ] (k : κ) (v : ν)
    (m : List (κ × List ν)) :
    (dictAppend k v m).map Prod.fst =
      if k ∈ m.map Prod.fst then m.map Prod.fst
      else m.map Prod.fst ++ [k] := by
  induction m with
  | nil => simp [dictAppend]
  | cons p rest ih =>
    obtain ⟨k', vs⟩ := p
    by_cases h : k' = k
    · subst h; simp [dictAppend]
    · have hne : ¬(k = k') := fun he => h he.symm
      simp only [dictAppend, if_neg h, List.map_cons, List.mem_cons, ih]
      by_cases hk : k ∈ rest.map Prod.fst
      · simp [hk, hne]
      · simp [hk, hne]

theorem mem_dictAppend {κ ν : Type} [DecidableEq κ]
    {m : List (κ × List ν)} {k : κ} {v : ν} {p : κ × List ν}
    (h : p ∈ dictAppend k v m) :
    p.1 ∈ m.map Prod.fst ∨ p.1 = k := by
  have : p.1 ∈ (dictAppend k v m).map Prod.fst := List.mem_map_of_mem _ h
  rw [keys_dictAppend] at this
  by_cases hk : k ∈ m.map Prod.fst
  · rw [if_pos hk] at this
    exact Or.inl this
  · rw [if_neg hk] at this
    rcases List.mem_append.mp this with h1 | h1
    · exact Or.inl h1
    · exact Or.inr (List.mem_singleton.mp h1)

theorem dictAppend_values_ne_nil {κ ν : Type} [DecidableEq κ]
    {m : List (κ × List ν)} (k : κ) (v : ν)
    (h : ∀ p ∈ m, p.2 ≠ []) : ∀ p ∈ dictAppend k v m, p.2 ≠ [] := by
  induction m with
  | nil =>
    intro p hp
    rw [dictAppend] at hp
    rw [List.mem_singleton.mp hp]
    simp
  | cons q rest ih =>
    intro p hp
    obtain ⟨k', vs⟩ := q
    rw [dictAppend] at hp
    split at hp
    · rcases List.mem_cons.mp hp with rfl | hp'
      · simp
      · exact h _ (List.mem_cons_of_mem _ hp')
    · rcases List.mem_cons.mp hp with rfl | hp'
      · exact h _ (List.mem_cons_self _ _)
      · exact ih (fun x hx => h x (List.mem_cons_of_mem _ hx)) p hp'

theorem nodup_keys_dictAppend {κ ν : Type} [DecidableEq κ]
    {m : List (κ × List ν)} (k : κ) (v : ν)
    (h : (m.map Prod.fst).Nodup) :
    ((dictAppend k v m).map Prod.fst).Nodup := by
  rw [keys_dictAppend]
  by_cases hk : k ∈ m.map Prod.fst
  · simpa [hk] using h
  · simp only [if_neg hk]
    simpa [List.nodup_append, hk] using h

theorem buildAdjList_inv (edges : List (Int × Int × Option Int)) :
    ((buildAdjList edges).map Prod.fst).Nodup ∧
      (∀ p ∈ buildAdjList edges, p.2 ≠ []) ∧
      (∀ p ∈ buildAdjList edges, ∃ e ∈ edges, p.1 = e.1 ∨ p.1 = e.2.1) := by
  suffices h : ∀ (es : List (Int × Int × Option Int))
      (m : List (Int × List (Int × Int))),
      (m.map Prod.fst).Nodup → (∀ p ∈ m, p.2 ≠ []) →
      ((es.foldl (fun m e =>
          let w := match e.2.2 with | some x => x | none => 1
          dictAppend e.2.1 (e.1, w) (dictAppend e.1 (e.2.1, w) m)) m).map
        Prod.fst).Nodup ∧
      (∀ p ∈ es.foldl (fun m e =>
          let w := match e.2.2 with | some x => x | none => 1
          dictAppend e.2.1 (e.1, w) (dictAppend e.1 (e.2.1, w) m)) m, p.2 ≠ []) ∧
      (∀ p ∈ es.foldl (fun m e =>
          let w := match e.2.2 with | some x => x | none => 1
          dictAppend e.2.1 (e.1, w) (dictAppend e.1 (e.2.1, w) m)) m,
        p.1 ∈ m.map Prod.fst ∨ ∃ e ∈ es, p.1 = e.1 ∨ p.1 = e.2.1) by
    have := h edges [] (by simp) (by simp)
    refine ⟨this.1, this.2.1, ?_⟩
    intro p hp
    rcases this.2.2 p hp with h1 | h1
    · simp at h1
    · exact h1
  intro es
  induction es with
  | nil =>
    intro m h1 h2
    exact ⟨h1, h2, fun p hp => Or.inl (List.mem_map_of_mem _ hp)⟩
  | cons e rest ih =>
    intro m h1 h2
    simp only [List.foldl_cons]
    obtain ⟨r1, r2, r3⟩ := ih _
      (nodup_keys_dictAppend _ _ (nodup_keys_dictAppend _ _ h1))
      (dictAppend_values_ne_nil _ _ (dictAppend_values_ne_nil _ _ h2))
    refine ⟨r1, r2, ?_⟩
    intro p hp
    rcases r3 p hp with h4 | h4
    · obtain ⟨q, hq, hq1⟩ := List.mem_map.mp h4
      rcases mem_dictAppend hq with h5 | h5
      · obtain ⟨q2, hq2, hq21⟩ := List.mem_map.mp h5
        rcases mem_dictAppend hq2 with h6 | h6
        · exact Or.inl (by rw [← hq1, ← hq21]; exact h6)
        · exact Or.inr ⟨e, List.mem_cons_self _ _,
            Or.inl (by rw [← hq1, ← hq21, h6])⟩
      · exact Or.inr ⟨e, List.mem_cons_self _ _,
          Or.inr (by rw [← hq1, h5])⟩
    · obtain ⟨e2, he2, he21⟩ := h4
      exact Or.inr ⟨e2, List.mem_cons_of_mem _ he2, he21⟩

theorem exists_large_id {ids : List Int} (hnd : ids.Nodup)
    (hnn : ∀ x ∈ ids, 0 ≤ x) (hnc : ¬ idsContiguous ids) :
    ∃ x ∈ ids, (ids.length : Int) ≤ x := by
  by_contra hc
  push_neg at hc
  apply hnc
  unfold idsContiguous
  have hsub : ids.toFinset ⊆
      ((List.range ids.length).map (fun k : Nat => (k : Int))).toFinset := by
    intro x hx
    have hx' : x ∈ ids := List.mem_toFinset.mp hx
    have h0 := hnn x hx'
    have h1 := hc x hx'
    rw [List.mem_toFinset, List.mem_map]
    exact ⟨x.toNat, List.mem_range.mpr (by omega), by omega⟩
  refine Finset.eq_of_subset_of_card_le hsub ?_
  have hS : ids.toFinset.card = ids.length := List.toFinset_card_of_nodup hnd
  have hT : (((List.range ids.length).map
      (fun k : Nat => (k : Int))).toFinset).card = ids.length := by
    rw [List.toFinset_card_of_nodup]
    · simp
    · exact (List.nodup_range _).map fun a b h => by exact_mod_cast h
  omega

theorem foldl_matStep_error (n : Nat) (e : PyErr) :
    ∀ writes : List (Int × Int × Int),
      writes.foldl (matStep n) (.error e) = .error e := by
  intro writes
  induction writes with
  | nil => rfl
  | cons w ws ih => simpa [matStep] using ih

theorem foldl_matStep_ok {n : Nat} :
    ∀ {writes : List (Int × Int × Int)}
      {acc : Except PyErr (Nat → Nat → Int)} {M : Nat → Nat → Int},
      writes.foldl (matStep n) acc = .ok M →
      ∀ wrt ∈ writes, (npIdx n wrt.1).isSome ∧ (npIdx n wrt.2.1).isSome := by
  intro writes
  induction writes with
  | nil => intro acc M _ wrt h; simp at h
  | cons w ws ih =>
    intro acc M h wrt hw
    have hstep : (matStep n acc w) ≠ .error PyErr.indexError ∨ True := Or.inr trivial
    rcases List.mem_cons.mp hw with rfl | hw'
    · by_contra hc
      rw [Classical.not_and_iff_or_not_not] at hc
      have herr : ∃ e, matStep n acc wrt = .error e := by
        cases acc with
        | error e => exact ⟨e, rfl⟩
        | ok M0 =>
          refine ⟨.indexError, ?_⟩
          unfold matStep writeMat
          rcases hc with hc | hc
          · rw [Option.not_isSome_iff_eq_none] at hc
            rw [hc]
          · rw [Option.not_isSome_iff_eq_none] at hc
            rw [hc]
            cases npIdx n wrt.1 <;> rfl
      obtain ⟨e, he⟩ := herr
      rw [List.foldl_cons, he, foldl_matStep_error] at h
      exact absurd h (by simp)
    · exact ih h wrt hw'

theorem mem_adjWrites_of_key {al : List (Int × List (Int × Int))} {k : Int}
    {vs : List (Int × Int)} (h : (k, vs) ∈ al) {q : Int × Int}
    (hq : q ∈ vs) : (k, q.1, q.2) ∈ adjWrites al := by
  unfold adjWrites
  rw [List.mem_flatten]
  refine ⟨vs.map (fun q => (k, q.1, q.2)), ?_, ?_⟩
  · exact List.mem_map_of_mem _ h
  · exact List.mem_map_of_mem _ hq

/-- C9 counterexample: the single edge between nodes -1 and 0.  The node
id set {-1, 0} is not {0, 1}, yet no matrix write is out of range (numpy
wraps the negative index to the last row), and the function returns an
(entropy, weights) result instead of failing. -/
theorem c9_counterexample :
    ¬ idsContiguous (nodeIds c9edges) ∧
      (computeGraphDiffusion c9edges 6000).isOk = true := by
  decide

/-- C9 (amended): restricted to nonnegative node ids, the claim holds:
whenever the distinct ids are not exactly {0, ..., n-1} some adjacency
write indexes a row or column at least n and the function raises instead
of returning a result (or returns the too-big None when n exceeds the
cap); negative ids, however, wrap per numpy indexing and can make the
function return a result for non-contiguous id sets. -/
theorem c9_amended_raw_id_indexing (edges : List (Int × Int × Option Int))
    (mx : Nat) (hnn : ∀ e ∈ edges, 0 ≤ e.1 ∧ 0 ≤ e.2.1)
    (hnc : ¬ idsContiguous (nodeIds edges)) :
    (computeGraphDiffusion edges mx).isOk = false := by
  obtain ⟨hnd, hne, horigin⟩ := buildAdjList_inv edges
  unfold computeGraphDiffusion
  by_cases hbig : (buildAdjList edges).length > mx
  · simp only [hbig, if_true]
    rfl
  · simp only [hbig, if_false]
    have hidsnn : ∀ x ∈ nodeIds edges, 0 ≤ x := by
      intro x hx
      obtain ⟨p, hp, hpk⟩ := List.mem_map.mp hx
      obtain ⟨e, he, he1⟩ := horigin p hp
      rcases he1 with h | h
      · rw [← hpk, h]
        exact (hnn e he).1
      · rw [← hpk, h]
        exact (hnn e he).2
    obtain ⟨id, hidmem, hidge⟩ := exists_large_id hnd hidsnn hnc
    obtain ⟨p, hp, hpk⟩ := List.mem_map.mp hidmem
    obtain ⟨q, hq⟩ := List.exists_mem_of_ne_nil _ (hne p hp)
    have hwrite : (id, q.1, q.2) ∈ adjWrites (buildAdjList edges) := by
      have : (p.1, p.2) ∈ buildAdjList edges := by
        simpa using hp
      rw [hpk] at this
      exact mem_adjWrites_of_key this hq
    have hnone : npIdx (buildAdjList edges).length id = none := by
      unfold npIdx
      have h0 : (0 : Int) ≤ id := hidsnn id hidmem
      have hlen : ((nodeIds edges).length : Int) ≤ id := hidge
      have hlen2 : (nodeIds edges).length = (buildAdjList edges).length := by
        unfold nodeIds
        simp
      rw [hlen2] at hlen
      rw [if_neg (by omega), if_neg (by omega)]
    cases hbm : buildMatrix (buildAdjList edges).length (buildAdjList edges) with
    | error e =>
      rfl
    | ok M =>
      exfalso
      have := (foldl_matStep_ok hbm (id, q.1, q.2) hwrite).1
      rw [hnone] at this
      simp at this

/-- Witness for the amended C9: the single edge between nodes 0 and 2
(nonnegative, non-contiguous ids) makes the function fail. -/
theorem c9_amended_raw_id_indexing_witness :
    (computeGraphDiffusion c9wEdges 6000).isOk = false :=
  c9_amended_raw_id_indexing c9wEdges 6000 (by decide) (by decide)

/-- C1 (refuting evidence): an Insertion segment whose repeated context
reaches the start of the sequences makes the left-shift loop read indices
below 0 (Python wraps them) and march past even the wrapped range, so
get_variant_calls raises an IndexError instead of stopping the shift at
index 0.  Here rs0 = AA, cs0 = AAA and the insertion sits at offset 2. -/
theorem c1_insertion_shift_underflows :
    getVariantCalls ⟨0, 0, ['A', 'A'], ['A', 'A', 'A'], 0⟩
      [⟨⟨0, 2, 0⟩, ⟨0, 2, 1⟩, 73⟩] = .error .indexError := by
  simp [getVariantCalls, runSegs, processSeg, segKeyBases, insShift, pyGet]

/-- C4 (refuting evidence): a segment of kind Unspecified (code 85) is not
skipped: it falls through the X/I/D branches to the record write, which
reads the still-unbound locals key, ref_bases, alt_bases and raises an
UnboundLocalError, so get_variant_calls fails instead of ignoring the
segment. -/
theorem c4_unspecified_segment_raises :
    getVariantCalls ⟨0, 0, ['A', 'C'], ['A', 'C'], 0⟩
      [⟨⟨0, 0, 1⟩, ⟨0, 0, 1⟩, 85⟩] = .error .nameError := by
  decide

end PgrTk
